import Mathlib

/-!
# Verification of the event-pipeline Event Record Resolution Engine

A shallow embedding, in Lean 4, of the core string/date/matching algorithms of
the event pipeline (`pipeline/process_responses.py` and `pipeline/export_events.py`),
together with proofs and refutations of the frozen specification claims.

Modelling conventions:
* Python strings are modelled as `String`/`List Char`; the character-class
  predicates (`\s`, `\w`, `lower`, `upper`) are modelled on the ASCII range,
  which is the range exercised by every concrete input appearing below.
* Python floats (scores, coordinates) are modelled as exact rationals `ℚ`.
* Python dicts in insertion order are modelled as association lists.
* `None`/missing dict keys are modelled with `Option`.
-/

namespace Fomo

/-! ## Basic character and string utilities -/

/-- Whitespace as matched by Python's `str.strip` / regex `\s` (ASCII range). -/
def isSpaceCh (c : Char) : Bool :=
  c = ' ' || c = '\t' || c = '\n' || c = '\r' || c = '\x0b' || c = '\x0c'

/-- Python `str.strip()` on a character list. -/
def stripWsL (l : List Char) : List Char :=
  ((l.dropWhile isSpaceCh).reverse.dropWhile isSpaceCh).reverse

/-- Python `str.strip()`. -/
def stripWs (s : String) : String := ⟨stripWsL s.data⟩

/-- Python `str.lower()` (ASCII). -/
def lowerStr (s : String) : String := ⟨s.data.map Char.toLower⟩

/-- Python `str.upper()` (ASCII). -/
def upperStr (s : String) : String := ⟨s.data.map Char.toUpper⟩

/-- `re.sub(r'\\s+', ' ', ·)`: collapse every maximal whitespace run to one
space.  (Structured as: a whitespace character followed by more whitespace is
skipped; the last whitespace of a run becomes one `' '`.) -/
def collapseWs : List Char → List Char
  | [] => []
  | [c] => if isSpaceCh c then [' '] else [c]
  | c :: d :: rest =>
    if isSpaceCh c then
      if isSpaceCh d then collapseWs (d :: rest) else ' ' :: collapseWs (d :: rest)
    else c :: collapseWs (d :: rest)

/-- Python `str.replace(pat, rep)`: left-to-right, non-overlapping, the
replacement is not rescanned.  Structural recursion on a fuel argument that
starts at the length of the scanned list (enough fuel, since every step
consumes at least one character); with fuel `0` the rest is returned as is. -/
def replaceAllGo (pat rep : List Char) : Nat → List Char → List Char
  | 0, l => l
  | _ + 1, [] => []
  | fuel + 1, c :: rest =>
    if pat ≠ [] ∧ pat.isPrefixOf (c :: rest) then
      rep ++ replaceAllGo pat rep fuel ((c :: rest).drop pat.length)
    else
      c :: replaceAllGo pat rep fuel rest

/-- Python `str.replace(pat, rep)` (all occurrences). -/
def replaceAll (pat rep l : List Char) : List Char :=
  replaceAllGo pat rep l.length l

/-! ## Field Sanitizer (`_sanitize_text`, process_responses.py lines 69-110) -/

/-- `re.sub(r'<[^>]+>', ' ', ·)`: replace every `<`, one or more non-`>`
characters, `>` block by a single space (leftmost, greedy-within-class).
Fuelled like `replaceAllGo`. -/
def stripTagsGo : Nat → List Char → List Char
  | 0, l => l
  | _ + 1, [] => []
  | fuel + 1, c :: rest =>
    if c = '<' then
      match rest.dropWhile (fun x => x ≠ '>') with
      | '>' :: tail =>
        if rest.takeWhile (fun x => x ≠ '>') = [] then '<' :: stripTagsGo fuel rest
        else ' ' :: stripTagsGo fuel tail
      | _ => '<' :: stripTagsGo fuel rest
    else c :: stripTagsGo fuel rest

/-- `re.sub(r'<[^>]+>', ' ', ·)` on a character list. -/
def stripTags (l : List Char) : List Char :=
  stripTagsGo l.length l

/-- The fixed HTML-entity table, in source order. -/
def htmlEntities : List (List Char × List Char) :=
  [("&nbsp;".data, " ".data),
   ("&amp;".data, "&".data),
   ("&lt;".data, "<".data),
   ("&gt;".data, ">".data),
   ("&quot;".data, "\"".data),
   ("&#39;".data, "'".data),
   ("&apos;".data, "'".data),
   ("&ndash;".data, "–".data),
   ("&mdash;".data, "—".data),
   ("&rsquo;".data, "’".data),
   ("&lsquo;".data, "‘".data),
   ("&rdquo;".data, "”".data),
   ("&ldquo;".data, "“".data)]

/-- Sequential decoding of the entity table. -/
def decodeEntities (l : List Char) : List Char :=
  htmlEntities.foldl (fun acc p => replaceAll p.1 p.2 acc) l

/-- `.replace('\n',' ').replace('\r',' ').replace('\t',' ')`. -/
def nlToSpace (l : List Char) : List Char :=
  ((l.map (fun c => if c = '\n' then ' ' else c)).map
      (fun c => if c = '\r' then ' ' else c)).map
    (fun c => if c = '\t' then ' ' else c)

/-- Removal of the four zero-width/invisible characters. -/
def stripInvisible (l : List Char) : List Char :=
  (((l.filter (fun c => c != '\u200B')).filter (fun c => c != '\u200C')).filter
      (fun c => c != '\uFEFF')).filter (fun c => c != '\u00AD')

/-- The full sanitizer pipeline on a character list. -/
def sanitizeData (l : List Char) : List Char :=
  stripWsL (collapseWs (stripInvisible (nlToSpace (decodeEntities (stripTags l)))))

/-- `_sanitize_text`: the Field Sanitizer. -/
def sanitizeText (s : String) : String :=
  if s = "" then s else ⟨sanitizeData s.data⟩

/-! ### Sanitizer lemmas (towards claim C8) -/

lemma mem_of_mem_stripWsL {c : Char} {l : List Char} (h : c ∈ stripWsL l) : c ∈ l := by
  unfold stripWsL at h
  rw [List.mem_reverse] at h
  have h2 := (List.dropWhile_suffix isSpaceCh).subset h
  rw [List.mem_reverse] at h2
  exact (List.dropWhile_suffix isSpaceCh).subset h2

lemma collapseWs_cons₂_ss {a d : Char} {rest : List Char}
    (h1 : isSpaceCh a = true) (h2 : isSpaceCh d = true) :
    collapseWs (a :: d :: rest) = collapseWs (d :: rest) := by
  simp [collapseWs, h1, h2]

lemma collapseWs_cons₂_sn {a d : Char} {rest : List Char}
    (h1 : isSpaceCh a = true) (h2 : isSpaceCh d = false) :
    collapseWs (a :: d :: rest) = ' ' :: collapseWs (d :: rest) := by
  simp [collapseWs, h1, h2]

lemma collapseWs_cons₂_n {a d : Char} {rest : List Char} (h1 : isSpaceCh a = false) :
    collapseWs (a :: d :: rest) = a :: collapseWs (d :: rest) := by
  simp [collapseWs, h1]

lemma collapseWs_one_s {d : Char} (h : isSpaceCh d = true) : collapseWs [d] = [' '] := by
  simp [collapseWs, h]

lemma collapseWs_one_n {d : Char} (h : isSpaceCh d = false) : collapseWs [d] = [d] := by
  simp [collapseWs, h]

lemma collapseWs_space_eq :
    ∀ {l : List Char} {c : Char}, c ∈ collapseWs l → isSpaceCh c = true → c = ' '
  | [], c, h, _ => by simp [collapseWs] at h
  | [d], c, h, hs => by
    rcases Or.symm (Bool.eq_false_or_eq_true (isSpaceCh d)) with hd | hd
    · rw [collapseWs_one_n hd] at h
      simp at h
      subst h
      rw [hs] at hd
      cases hd
    · rw [collapseWs_one_s hd] at h
      simpa using h
  | a :: d :: rest, c, h, hs => by
    rcases Or.symm (Bool.eq_false_or_eq_true (isSpaceCh a)) with ha | ha
    · rw [collapseWs_cons₂_n ha] at h
      rcases List.mem_cons.mp h with rfl | h
      · rw [hs] at ha; cases ha
      · exact collapseWs_space_eq h hs
    · rcases Or.symm (Bool.eq_false_or_eq_true (isSpaceCh d)) with hd | hd
      · rw [collapseWs_cons₂_sn ha hd] at h
        rcases List.mem_cons.mp h with rfl | h
        · rfl
        · exact collapseWs_space_eq h hs
      · rw [collapseWs_cons₂_ss ha hd] at h
        exact collapseWs_space_eq h hs

lemma mem_collapseWs :
    ∀ {l : List Char} {c : Char}, c ∈ collapseWs l → c ∈ l ∨ c = ' '
  | [], c, h => by simp [collapseWs] at h
  | [d], c, h => by
    rcases Or.symm (Bool.eq_false_or_eq_true (isSpaceCh d)) with hd | hd
    · rw [collapseWs_one_n hd] at h; left; exact h
    · rw [collapseWs_one_s hd] at h; right; simpa using h
  | a :: d :: rest, c, h => by
    rcases Or.symm (Bool.eq_false_or_eq_true (isSpaceCh a)) with ha | ha
    · rw [collapseWs_cons₂_n ha] at h
      rcases List.mem_cons.mp h with rfl | h
      · left; exact List.mem_cons_self _ _
      · rcases mem_collapseWs h with h | h
        · left; exact List.mem_cons_of_mem _ h
        · right; exact h
    · rcases Or.symm (Bool.eq_false_or_eq_true (isSpaceCh d)) with hd | hd
      · rw [collapseWs_cons₂_sn ha hd] at h
        rcases List.mem_cons.mp h with rfl | h
        · right; rfl
        · rcases mem_collapseWs h with h | h
          · left; exact List.mem_cons_of_mem _ h
          · right; exact h
      · rw [collapseWs_cons₂_ss ha hd] at h
        rcases mem_collapseWs h with h | h
        · left; exact List.mem_cons_of_mem _ h
        · right; exact h

lemma collapseWs_head? :
    ∀ l : List Char,
      (collapseWs l).head? = l.head?.map (fun c => if isSpaceCh c then ' ' else c)
  | [] => rfl
  | [d] => by
    rcases Or.symm (Bool.eq_false_or_eq_true (isSpaceCh d)) with hd | hd
    · rw [collapseWs_one_n hd]; simp [hd]
    · rw [collapseWs_one_s hd]; simp [hd]
  | a :: d :: rest => by
    rcases Or.symm (Bool.eq_false_or_eq_true (isSpaceCh a)) with ha | ha
    · rw [collapseWs_cons₂_n ha]; simp [ha]
    · rcases Or.symm (Bool.eq_false_or_eq_true (isSpaceCh d)) with hd | hd
      · rw [collapseWs_cons₂_sn ha hd]; simp [ha]
      · rw [collapseWs_cons₂_ss ha hd, collapseWs_head? (d :: rest)]
        simp [ha, hd]

/-- No two adjacent whitespace characters. -/
def noAdjWs (a b : Char) : Prop := isSpaceCh a = false ∨ isSpaceCh b = false

lemma noAdjWs_symm {a b : Char} (h : noAdjWs a b) : noAdjWs b a := h.symm

lemma chain'_collapseWs : ∀ l : List Char, List.Chain' noAdjWs (collapseWs l)
  | [] => by simp [collapseWs]
  | [d] => by
    rcases Or.symm (Bool.eq_false_or_eq_true (isSpaceCh d)) with hd | hd
    · rw [collapseWs_one_n hd]; simp
    · rw [collapseWs_one_s hd]; simp
  | a :: d :: rest => by
    have htl := chain'_collapseWs (d :: rest)
    rcases Or.symm (Bool.eq_false_or_eq_true (isSpaceCh a)) with ha | ha
    · rw [collapseWs_cons₂_n ha]
      refine List.chain'_cons'.mpr ⟨fun y _ => Or.inl ha, htl⟩
    · rcases Or.symm (Bool.eq_false_or_eq_true (isSpaceCh d)) with hd | hd
      · rw [collapseWs_cons₂_sn ha hd]
        refine List.chain'_cons'.mpr ⟨?_, htl⟩
        intro y hy
        rw [collapseWs_head? (d :: rest)] at hy
        simp only [List.head?_cons, Option.map_some'] at hy
        rcases Option.some.inj hy with rfl
        right; simp [hd]
      · rw [collapseWs_cons₂_ss ha hd]
        exact htl

lemma collapseWs_eq_self :
    ∀ {l : List Char}, (∀ c ∈ l, isSpaceCh c = true → c = ' ') →
      List.Chain' noAdjWs l → collapseWs l = l
  | [], _, _ => rfl
  | [d], h, _ => by
    rcases Or.symm (Bool.eq_false_or_eq_true (isSpaceCh d)) with hd | hd
    · exact collapseWs_one_n hd
    · rw [collapseWs_one_s hd, h d (by simp) hd]
  | a :: d :: rest, h, hc => by
    have hch := (List.chain'_cons.mp hc).1
    have htl := (List.chain'_cons.mp hc).2
    have hihyp : ∀ c ∈ d :: rest, isSpaceCh c = true → c = ' ' :=
      fun c hcm hs => h c (List.mem_cons_of_mem _ hcm) hs
    rcases Or.symm (Bool.eq_false_or_eq_true (isSpaceCh a)) with ha | ha
    · rw [collapseWs_cons₂_n ha, collapseWs_eq_self hihyp htl]
    · rcases Or.symm (Bool.eq_false_or_eq_true (isSpaceCh d)) with hd | hd
      · rw [collapseWs_cons₂_sn ha hd, collapseWs_eq_self hihyp htl,
          h a (List.mem_cons_self _ _) ha]
      · rcases hch with h1 | h1
        · rw [ha] at h1; cases h1
        · rw [hd] at h1; cases h1

lemma mem_stripTagsGo :
    ∀ (fuel : Nat) (l : List Char) {c : Char}, c ∈ stripTagsGo fuel l → c ∈ l ∨ c = ' ' := by
  intro fuel
  induction fuel with
  | zero => intro l c h; exact Or.inl h
  | succ f ih =>
    intro l c h
    match l with
    | [] => exact Or.inl h
    | a :: rest =>
      simp only [stripTagsGo] at h
      split at h
      · split at h
        next heq =>
          split at h
          · rcases List.mem_cons.mp h with rfl | h
            · left; simp_all
            · rcases ih rest h with h | h
              · left; exact List.mem_cons_of_mem _ h
              · right; exact h
          · rcases List.mem_cons.mp h with rfl | h
            · right; rfl
            · rcases ih _ h with h2 | h2
              · left
                refine List.mem_cons_of_mem _ ?_
                refine (List.dropWhile_suffix (fun x => x ≠ '>')).subset ?_
                rw [heq]
                exact List.mem_cons_of_mem _ h2
              · right; exact h2
        next =>
          rcases List.mem_cons.mp h with rfl | h
          · left; simp_all
          · rcases ih rest h with h | h
            · left; exact List.mem_cons_of_mem _ h
            · right; exact h
      · rcases List.mem_cons.mp h with rfl | h
        · left; exact List.mem_cons_self _ _
        · rcases ih rest h with h | h
          · left; exact List.mem_cons_of_mem _ h
          · right; exact h

lemma replaceAllGo_eq_self {pat rep : List Char} (c0 : Char) (hp : pat.head? = some c0) :
    ∀ (fuel : Nat) (l : List Char), c0 ∉ l → replaceAllGo pat rep fuel l = l := by
  intro fuel
  induction fuel with
  | zero => intro l _; rfl
  | succ f ih =>
    intro l hl
    match l with
    | [] => rfl
    | c :: rest =>
      have hcond : ¬(pat ≠ [] ∧ pat.isPrefixOf (c :: rest) = true) := by
        rintro ⟨hne, hpre⟩
        match pat, hp with
        | c0 :: pt, rfl =>
          have := (List.cons_prefix_cons.mp (List.isPrefixOf_iff_prefix.mp hpre)).1
          exact hl (this ▸ List.mem_cons_self _ _)
      simp only [replaceAllGo, dif_neg hcond, if_neg hcond]
      rw [ih rest (fun hx => hl (List.mem_cons_of_mem _ hx))]

lemma replaceAll_eq_self {pat rep l : List Char} (c0 : Char)
    (hp : pat.head? = some c0) (h : c0 ∉ l) : replaceAll pat rep l = l :=
  replaceAllGo_eq_self c0 hp _ l h

lemma decodeEntities_eq_self {l : List Char} (h : '&' ∉ l) : decodeEntities l = l := by
  simp only [decodeEntities, htmlEntities, List.foldl_cons, List.foldl_nil]
  repeat rw [replaceAll_eq_self '&' (by decide) h]

lemma mem_ifmap {c t : Char} {l : List Char}
    (h : c ∈ l.map (fun x => if x = t then ' ' else x)) : c ∈ l ∨ c = ' ' := by
  rcases List.mem_map.mp h with ⟨a, ha, he⟩
  by_cases hat : a = t
  · right; rw [← he, if_pos hat]
  · left; rw [← he, if_neg hat]; exact ha

lemma mem_nlToSpace {c : Char} {l : List Char} (h : c ∈ nlToSpace l) : c ∈ l ∨ c = ' ' := by
  unfold nlToSpace at h
  rcases mem_ifmap h with h | h
  · rcases mem_ifmap h with h | h
    · rcases mem_ifmap h with h | h
      · left; exact h
      · right; exact h
    · right; exact h
  · right; exact h

lemma ifmap_eq_self {t : Char} {l : List Char} (h : t ∉ l) :
    l.map (fun x => if x = t then ' ' else x) = l := by
  conv_rhs => rw [← List.map_id l]
  apply List.map_congr_left
  intro a ha
  have : ¬(a = t) := fun hx => h (hx ▸ ha)
  simp [this]

lemma nlToSpace_eq_self {l : List Char}
    (h : ∀ c ∈ l, isSpaceCh c = true → c = ' ') : nlToSpace l = l := by
  have hn : ∀ t : Char, isSpaceCh t = true → t ≠ ' ' → t ∉ l := by
    intro t hs hne hmem
    exact hne (h t hmem hs)
  unfold nlToSpace
  rw [ifmap_eq_self (hn '\n' (by decide) (by decide)),
      ifmap_eq_self (hn '\r' (by decide) (by decide)),
      ifmap_eq_self (hn '\t' (by decide) (by decide))]

lemma mem_stripInvisible {c : Char} {l : List Char} (h : c ∈ stripInvisible l) :
    c ∈ l ∧ c ≠ '\u200B' ∧ c ≠ '\u200C' ∧ c ≠ '\uFEFF' ∧ c ≠ '\u00AD' := by
  simp only [stripInvisible, List.mem_filter, bne_iff_ne] at h
  tauto

lemma stripInvisible_eq_self {l : List Char}
    (h : ∀ c ∈ l, c ≠ '\u200B' ∧ c ≠ '\u200C' ∧ c ≠ '\uFEFF' ∧ c ≠ '\u00AD') :
    stripInvisible l = l := by
  have h1 : l.filter (fun c => c != '\u200B') = l :=
    List.filter_eq_self.mpr fun a ha => by simp only [bne_iff_ne, ne_eq, decide_eq_true_eq]; exact (h a ha).1
  have h2 : l.filter (fun c => c != '\u200C') = l :=
    List.filter_eq_self.mpr fun a ha => by simp only [bne_iff_ne, ne_eq, decide_eq_true_eq]; exact (h a ha).2.1
  have h3 : l.filter (fun c => c != '\uFEFF') = l :=
    List.filter_eq_self.mpr fun a ha => by simp only [bne_iff_ne, ne_eq, decide_eq_true_eq]; exact (h a ha).2.2.1
  have h4 : l.filter (fun c => c != '\u00AD') = l :=
    List.filter_eq_self.mpr fun a ha => by simp only [bne_iff_ne, ne_eq, decide_eq_true_eq]; exact (h a ha).2.2.2
  unfold stripInvisible
  rw [h1, h2, h3, h4]

lemma dropWhile_head_not {p : Char → Bool} {l : List Char} {a : Char}
    (h : (l.dropWhile p).head? = some a) : p a = false := by
  have h2 := List.head?_dropWhile_not p l
  rw [h] at h2
  exact h2

lemma dropWhile_eq_self_of_head {p : Char → Bool} {l : List Char}
    (h : ∀ a, l.head? = some a → p a = false) : l.dropWhile p = l := by
  cases l with
  | nil => rfl
  | cons a t =>
    rw [List.dropWhile_cons, if_neg]
    simp [h a rfl]

lemma stripWsL_idem (l : List Char) : stripWsL (stripWsL l) = stripWsL l := by
  have h0 : stripWsL l = ((l.dropWhile isSpaceCh).reverse.dropWhile isSpaceCh).reverse := rfl
  have hBhead : ∀ a,
      ((l.dropWhile isSpaceCh).reverse.dropWhile isSpaceCh).head? = some a →
        isSpaceCh a = false :=
    fun a ha => dropWhile_head_not ha
  by_cases hb : (l.dropWhile isSpaceCh).reverse.dropWhile isSpaceCh = []
  · rw [h0, hb]
    rfl
  · have hBlast : ((l.dropWhile isSpaceCh).reverse.dropWhile isSpaceCh).getLast? =
        (l.dropWhile isSpaceCh).head? := by
      obtain ⟨t, ht⟩ := @List.dropWhile_suffix _ (l.dropWhile isSpaceCh).reverse isSpaceCh
      have hsome : ((l.dropWhile isSpaceCh).reverse.dropWhile isSpaceCh).getLast?.isSome = true :=
        List.getLast?_isSome.mpr hb
      calc ((l.dropWhile isSpaceCh).reverse.dropWhile isSpaceCh).getLast?
          = (((l.dropWhile isSpaceCh).reverse.dropWhile isSpaceCh).getLast?).or
              t.getLast? := (Option.or_of_isSome hsome).symm
        _ = (t ++ (l.dropWhile isSpaceCh).reverse.dropWhile isSpaceCh).getLast? :=
              (List.getLast?_append).symm
        _ = ((l.dropWhile isSpaceCh).reverse).getLast? := by rw [ht]
        _ = (l.dropWhile isSpaceCh).head? := List.getLast?_reverse _
    have hyhead : ∀ a,
        (((l.dropWhile isSpaceCh).reverse.dropWhile isSpaceCh).reverse).head? = some a →
          isSpaceCh a = false := by
      intro a ha
      rw [List.head?_reverse, hBlast] at ha
      exact dropWhile_head_not ha
    rw [h0]
    show stripWsL _ = _
    unfold stripWsL
    rw [dropWhile_eq_self_of_head hyhead, List.reverse_reverse,
      dropWhile_eq_self_of_head hBhead]

lemma chain'_dropWhile {R : Char → Char → Prop} {p : Char → Bool} {l : List Char}
    (h : List.Chain' R l) : List.Chain' R (l.dropWhile p) := by
  obtain ⟨t, ht⟩ := @List.dropWhile_suffix _ l p
  rw [← ht] at h
  exact (List.chain'_append.mp h).2.1

lemma chain'_stripWsL {l : List Char} (h : List.Chain' noAdjWs l) :
    List.Chain' noAdjWs (stripWsL l) := by
  unfold stripWsL
  apply List.chain'_reverse.mpr
  apply List.Chain'.imp (fun a b hab => noAdjWs_symm hab)
  apply chain'_dropWhile
  apply List.chain'_reverse.mpr
  apply List.Chain'.imp (fun a b hab => noAdjWs_symm hab)
  exact chain'_dropWhile h

/-- The regex `<[^>]+>` matches nowhere: every `'<'` is either immediately
followed by `'>'` or has no `'>'` after it.  This is the invariant of the
tag stripper's output that makes a second stripping pass a no-op. -/
def tagSafe : List Char → Bool
  | [] => true
  | c :: rest =>
    (c != '<' || decide (rest.head? = some '>') || decide ('>' ∉ rest)) && tagSafe rest

lemma tagSafe_cons_iff {c : Char} {rest : List Char} :
    tagSafe (c :: rest) = true ↔
      ((c = '<' → rest.head? = some '>' ∨ '>' ∉ rest) ∧ tagSafe rest = true) := by
  simp only [tagSafe, Bool.and_eq_true, Bool.or_eq_true, bne_iff_ne, ne_eq,
    decide_eq_true_eq]
  tauto

lemma tagSafe_singleton (c : Char) : tagSafe [c] = true := by
  simp [tagSafe]

lemma tagSafe_append_right : ∀ {u v : List Char}, tagSafe (u ++ v) = true → tagSafe v = true := by
  intro u
  induction u with
  | nil => intro v h; exact h
  | cons c u ih =>
    intro v h
    rw [List.cons_append, tagSafe_cons_iff] at h
    exact ih h.2

lemma tagSafe_append_left : ∀ {m w : List Char}, tagSafe (m ++ w) = true → tagSafe m = true := by
  intro m
  induction m with
  | nil => intro w _; rfl
  | cons c m ih =>
    intro w h
    rw [List.cons_append, tagSafe_cons_iff] at h
    rw [tagSafe_cons_iff]
    refine ⟨?_, ih h.2⟩
    intro hc
    rcases h.1 hc with hh | hnm
    · cases m with
      | nil => right; exact List.not_mem_nil _
      | cons d t =>
        left
        simp only [List.cons_append, List.head?_cons] at hh ⊢
        exact hh
    · right
      intro hmem
      exact hnm (List.mem_append.mpr (Or.inl hmem))

lemma stripTagsGo_head_gt (fuel : Nat) (tail : List Char) :
    (stripTagsGo fuel ('>' :: tail)).head? = some '>' := by
  cases fuel with
  | zero => rfl
  | succ f =>
    simp only [stripTagsGo]
    rw [if_neg (by decide : ¬('>' = '<'))]
    rfl

lemma tagSafe_stripTagsGo :
    ∀ (fuel : Nat) (l : List Char), l.length ≤ fuel → tagSafe (stripTagsGo fuel l) = true := by
  intro fuel
  induction fuel with
  | zero =>
    intro l hl
    have h0 : l = [] := List.length_eq_zero.mp (Nat.le_zero.mp hl)
    subst h0
    rfl
  | succ f ih =>
    intro l hl
    match l with
    | [] => rfl
    | c :: rest =>
      have hrl : rest.length ≤ f := by
        simp only [List.length_cons] at hl
        omega
      simp only [stripTagsGo]
      by_cases hc : c = '<'
      · rw [if_pos hc]
        rcases hd : rest.dropWhile (fun x => x ≠ '>') with _ | ⟨d, tail⟩
        · have hnm : '>' ∉ rest := by
            intro hm
            have hall := List.dropWhile_eq_nil_iff.mp hd '>' hm
            simp at hall
          show tagSafe ('<' :: stripTagsGo f rest) = true
          rw [tagSafe_cons_iff]
          refine ⟨?_, ih rest hrl⟩
          intro _
          right
          intro hm
          rcases mem_stripTagsGo f rest hm with hx | hx
          · exact hnm hx
          · exact absurd hx (by decide)
        · have hdgt : d = '>' := by
            have hhd : (rest.dropWhile (fun x => decide (x ≠ '>'))).head? = some d := by
              rw [hd]
              rfl
            have h2 := dropWhile_head_not hhd
            simpa using h2
          subst hdgt
          by_cases htw : rest.takeWhile (fun x => x ≠ '>') = []
          · have hrest : rest = '>' :: tail := by
              conv_lhs => rw [← List.takeWhile_append_dropWhile
                (p := fun x => decide (x ≠ '>')) (l := rest)]
              rw [htw, hd]
              rfl
            show tagSafe (if rest.takeWhile (fun x => x ≠ '>') = [] then
                '<' :: stripTagsGo f rest else ' ' :: stripTagsGo f tail) = true
            rw [if_pos htw, tagSafe_cons_iff]
            refine ⟨?_, ih rest hrl⟩
            intro _
            left
            rw [hrest]
            exact stripTagsGo_head_gt f tail
          · have htl : tail.length ≤ f := by
              have hlen : ('>' :: tail).length ≤ rest.length := by
                rw [← hd]
                exact List.Sublist.length_le (List.dropWhile_sublist _)
              simp only [List.length_cons] at hlen
              omega
            show tagSafe (if rest.takeWhile (fun x => x ≠ '>') = [] then
                '<' :: stripTagsGo f rest else ' ' :: stripTagsGo f tail) = true
            rw [if_neg htw, tagSafe_cons_iff]
            exact ⟨fun h => absurd h (by decide), ih tail htl⟩
      · rw [if_neg hc, tagSafe_cons_iff]
        exact ⟨fun h => absurd h hc, ih rest hrl⟩

lemma stripTagsGo_eq_self_of_tagSafe :
    ∀ (fuel : Nat) {l : List Char}, tagSafe l = true → stripTagsGo fuel l = l := by
  intro fuel
  induction fuel with
  | zero => intro l _; rfl
  | succ f ih =>
    intro l hl
    match l with
    | [] => rfl
    | c :: rest =>
      rw [tagSafe_cons_iff] at hl
      simp only [stripTagsGo]
      by_cases hc : c = '<'
      · subst hc
        rw [if_pos rfl]
        rcases hl.1 rfl with hh | hnm
        · cases rest with
          | nil => simp at hh
          | cons d t =>
            have hdg : d = '>' := by simpa using hh
            subst hdg
            show '<' :: stripTagsGo f ('>' :: t) = '<' :: '>' :: t
            rw [ih hl.2]
        · have hdw : rest.dropWhile (fun x => x ≠ '>') = [] := by
            rw [List.dropWhile_eq_nil_iff]
            intro x hx
            simp only [ne_eq, decide_eq_true_eq]
            intro hxg
            exact hnm (hxg ▸ hx)
          rw [hdw]
          show '<' :: stripTagsGo f rest = '<' :: rest
          rw [ih hl.2]
      · rw [if_neg hc, ih hl.2]

lemma stripTags_eq_self_of_tagSafe {l : List Char} (h : tagSafe l = true) :
    stripTags l = l :=
  stripTagsGo_eq_self_of_tagSafe _ h

lemma tagSafe_stripTags (l : List Char) : tagSafe (stripTags l) = true :=
  tagSafe_stripTagsGo l.length l le_rfl

lemma tagSafe_map {f : Char → Char} (hlt : ∀ c, f c = '<' ↔ c = '<')
    (hgt : ∀ c, f c = '>' ↔ c = '>') :
    ∀ {l : List Char}, tagSafe l = true → tagSafe (l.map f) = true := by
  intro l
  induction l with
  | nil => intro h; exact h
  | cons c rest ih =>
    intro h
    rw [tagSafe_cons_iff] at h
    rw [List.map_cons, tagSafe_cons_iff]
    refine ⟨?_, ih h.2⟩
    intro hfc
    rcases h.1 ((hlt c).mp hfc) with hh | hnm
    · cases rest with
      | nil => simp at hh
      | cons d t =>
        have hdg : d = '>' := by simpa using hh
        subst hdg
        left
        simp only [List.map_cons, List.head?_cons]
        rw [(hgt '>').mpr rfl]
    · right
      intro hm
      rcases List.mem_map.mp hm with ⟨x, hx, hfx⟩
      exact hnm (((hgt x).mp hfx) ▸ hx)

lemma tagSafe_filter {p : Char → Bool} (hp : p '>' = true) :
    ∀ {l : List Char}, tagSafe l = true → tagSafe (l.filter p) = true := by
  intro l
  induction l with
  | nil => intro h; exact h
  | cons c rest ih =>
    intro h
    rw [tagSafe_cons_iff] at h
    rw [List.filter_cons]
    by_cases hpc : p c = true
    · rw [if_pos hpc, tagSafe_cons_iff]
      refine ⟨?_, ih h.2⟩
      intro hc
      rcases h.1 hc with hh | hnm
      · cases rest with
        | nil => simp at hh
        | cons d t =>
          have hdg : d = '>' := by simpa using hh
          subst hdg
          left
          rw [List.filter_cons, if_pos hp]
          rfl
      · right
        intro hm
        exact hnm (List.mem_of_mem_filter hm)
    · rw [if_neg hpc]
      exact ih h.2

lemma tagSafe_collapseWs : ∀ {l : List Char}, tagSafe l = true → tagSafe (collapseWs l) = true
  | [], _ => rfl
  | [d], _ => by
    rcases Or.symm (Bool.eq_false_or_eq_true (isSpaceCh d)) with hd | hd
    · rw [collapseWs_one_n hd]; exact tagSafe_singleton d
    · rw [collapseWs_one_s hd]; exact tagSafe_singleton ' '
  | a :: d :: rest, h => by
    rw [tagSafe_cons_iff] at h
    have htl := tagSafe_collapseWs h.2
    rcases Or.symm (Bool.eq_false_or_eq_true (isSpaceCh a)) with ha | ha
    · rw [collapseWs_cons₂_n ha, tagSafe_cons_iff]
      refine ⟨?_, htl⟩
      intro hc
      rcases h.1 hc with hh | hnm
      · left
        have hdg : d = '>' := by simpa using hh
        subst hdg
        rw [collapseWs_head? ('>' :: rest)]
        simp only [List.head?_cons, Option.map_some']
        decide
      · right
        intro hm
        rcases mem_collapseWs hm with hx | hx
        · exact hnm hx
        · exact absurd hx (by decide)
    · rcases Or.symm (Bool.eq_false_or_eq_true (isSpaceCh d)) with hd | hd
      · rw [collapseWs_cons₂_sn ha hd, tagSafe_cons_iff]
        exact ⟨fun hsp => absurd hsp (by decide), htl⟩
      · rw [collapseWs_cons₂_ss ha hd]
        exact htl

lemma tagSafe_stripWsL {l : List Char} (h : tagSafe l = true) :
    tagSafe (stripWsL l) = true := by
  obtain ⟨t1, ht1⟩ := @List.dropWhile_suffix _ l isSpaceCh
  have hA : tagSafe (l.dropWhile isSpaceCh) = true := tagSafe_append_right (ht1 ▸ h)
  obtain ⟨t2, ht2⟩ := @List.dropWhile_suffix _ (l.dropWhile isSpaceCh).reverse isSpaceCh
  have hsplit : l.dropWhile isSpaceCh =
      ((l.dropWhile isSpaceCh).reverse.dropWhile isSpaceCh).reverse ++ t2.reverse := by
    have h3 := congrArg List.reverse ht2
    rw [List.reverse_append, List.reverse_reverse] at h3
    exact h3.symm
  unfold stripWsL
  exact tagSafe_append_left (hsplit ▸ hA)

lemma ifmap_eq_iff {t r : Char} (x : Char) (h1 : r ≠ x) (h2 : t ≠ x) :
    ∀ c, ((if c = t then r else c) = x ↔ c = x) := by
  intro c
  by_cases hct : c = t
  · subst hct
    rw [if_pos rfl]
    constructor
    · intro h; exact absurd h h1
    · intro h; exact absurd h h2
  · rw [if_neg hct]

lemma tagSafe_nlToSpace {l : List Char} (h : tagSafe l = true) :
    tagSafe (nlToSpace l) = true := by
  unfold nlToSpace
  exact tagSafe_map (ifmap_eq_iff '<' (by decide) (by decide))
    (ifmap_eq_iff '>' (by decide) (by decide))
    (tagSafe_map (ifmap_eq_iff '<' (by decide) (by decide))
      (ifmap_eq_iff '>' (by decide) (by decide))
      (tagSafe_map (ifmap_eq_iff '<' (by decide) (by decide))
        (ifmap_eq_iff '>' (by decide) (by decide)) h))

lemma tagSafe_stripInvisible {l : List Char} (h : tagSafe l = true) :
    tagSafe (stripInvisible l) = true := by
  unfold stripInvisible
  exact tagSafe_filter (by decide)
    (tagSafe_filter (by decide) (tagSafe_filter (by decide) (tagSafe_filter (by decide) h)))

lemma sanitizeData_amp {l : List Char} (h1 : '&' ∉ l) :
    sanitizeData l = stripWsL (collapseWs (stripInvisible (nlToSpace (stripTags l)))) := by
  have hamp : '&' ∉ stripTags l := by
    intro hm
    rcases mem_stripTagsGo _ _ hm with hx | hx
    · exact h1 hx
    · exact absurd hx (by decide)
  unfold sanitizeData
  rw [decodeEntities_eq_self hamp]

lemma sanitizeData_fixed_amp {l : List Char} (h1 : '&' ∉ l) :
    sanitizeData (sanitizeData l) = sanitizeData l := by
  rw [sanitizeData_amp h1]
  have hmem : ∀ c ∈ stripWsL (collapseWs (stripInvisible (nlToSpace (stripTags l)))),
      c ∈ l ∨ c = ' ' := by
    intro c hc
    rcases mem_collapseWs (mem_of_mem_stripWsL hc) with hc4 | hc4
    · rcases mem_nlToSpace (mem_stripInvisible hc4).1 with hc5 | hc5
      · rcases mem_stripTagsGo _ _ hc5 with hc6 | hc6
        · left; exact hc6
        · right; exact hc6
      · right; exact hc5
    · right; exact hc4
  have hnozw : ∀ c ∈ stripWsL (collapseWs (stripInvisible (nlToSpace (stripTags l)))),
      c ≠ '​' ∧ c ≠ '‌' ∧ c ≠ '﻿' ∧ c ≠ '­' := by
    intro c hc
    rcases mem_collapseWs (mem_of_mem_stripWsL hc) with hc4 | hc4
    · exact (mem_stripInvisible hc4).2
    · subst hc4; exact ⟨by decide, by decide, by decide, by decide⟩
  have hws : ∀ c ∈ stripWsL (collapseWs (stripInvisible (nlToSpace (stripTags l)))),
      isSpaceCh c = true → c = ' ' :=
    fun c hc hs => collapseWs_space_eq (mem_of_mem_stripWsL hc) hs
  have hchain : List.Chain' noAdjWs
      (stripWsL (collapseWs (stripInvisible (nlToSpace (stripTags l))))) :=
    chain'_stripWsL (chain'_collapseWs _)
  have hamp : '&' ∉ stripWsL (collapseWs (stripInvisible (nlToSpace (stripTags l)))) := by
    intro hm
    rcases hmem _ hm with hx | hx
    · exact h1 hx
    · exact absurd hx (by decide)
  have hts : tagSafe (stripWsL (collapseWs (stripInvisible (nlToSpace (stripTags l))))) = true :=
    tagSafe_stripWsL (tagSafe_collapseWs (tagSafe_stripInvisible (tagSafe_nlToSpace
      (tagSafe_stripTags l))))
  unfold sanitizeData
  rw [stripTags_eq_self_of_tagSafe hts, decodeEntities_eq_self hamp, nlToSpace_eq_self hws,
    stripInvisible_eq_self hnozw, collapseWs_eq_self hws hchain]
  exact stripWsL_idem (collapseWs (stripInvisible (nlToSpace (stripTags l))))

/-! ### Claim C8 -/

/-- C8, counterexample: the Field Sanitizer is not idempotent.  On the input
`"&lt;b&gt;"` the first pass decodes the entities to `"<b>"`, and a second pass
then strips `"<b>"` as an HTML tag, yielding `""`. -/
theorem claim_C8_counterexample :
    ¬ (sanitizeText (sanitizeText "&lt;b&gt;") = sanitizeText "&lt;b&gt;") := by
  decide

lemma sanitizeText_eq {s : String} (h : s ≠ "") : sanitizeText s = ⟨sanitizeData s.data⟩ := by
  unfold sanitizeText
  rw [if_neg h]

lemma sanitizeText_mk_fixed {y : List Char} (hfix : sanitizeData y = y) :
    sanitizeText (⟨y⟩ : String) = ⟨y⟩ := by
  by_cases hy : (⟨y⟩ : String) = ""
  · rw [hy]; rfl
  · rw [sanitizeText_eq hy]
    show (⟨sanitizeData y⟩ : String) = ⟨y⟩
    rw [hfix]

/-- C8, amended: the Field Sanitizer is idempotent on every string that does
not contain `'&'`.  Entity decoding is the one stage that can break
idempotence — decoding can create fresh `<...>` tags (e.g. from `&lt;`) or
fresh entities out of `&`-sequences.  Without `'&'` a second run is a no-op:
in particular the tag stripper leaves no re-strippable tag (every surviving
`'<'` is immediately followed by `'>'` or has no later `'>'`), and the
whitespace stages preserve that invariant. -/
theorem claim_C8_amended (s : String) (h1 : '&' ∉ s.data) :
    sanitizeText (sanitizeText s) = sanitizeText s := by
  by_cases hs : s = ""
  · subst hs; rfl
  · rw [sanitizeText_eq hs]
    exact sanitizeText_mk_fixed (sanitizeData_fixed_amp h1)

/-- C8, witness: the amended theorem applied at `"Jazz <b>Night</b> <3"`, an
`'&'`-free string that does contain `'<'` — the first pass strips the tags
and the dangling `"<3"` survives both passes unchanged. -/
theorem claim_C8_witness :
    '&' ∉ "Jazz <b>Night</b> <3".data ∧
      sanitizeText (sanitizeText "Jazz <b>Night</b> <3") =
        sanitizeText "Jazz <b>Night</b> <3" :=
  ⟨by decide, claim_C8_amended "Jazz <b>Night</b> <3" (by decide)⟩

/-! ## Dates (`datetime.strptime(·, '%Y-%m-%d').date()`) -/

/-- A calendar date. -/
structure Date where
  year : Nat
  month : Nat
  day : Nat
deriving DecidableEq, Repr

def isLeapYear (y : Nat) : Bool :=
  y % 4 = 0 && (y % 100 ≠ 0 || y % 400 = 0)

def daysInMonth (y m : Nat) : Nat :=
  if m = 2 then (if isLeapYear y then 29 else 28)
  else if m = 4 ∨ m = 6 ∨ m = 9 ∨ m = 11 then 30
  else 31

def digitsToNat? (l : List Char) : Option Nat :=
  if l ≠ [] ∧ l.all Char.isDigit then
    some (l.foldl (fun acc c => acc * 10 + (c.toNat - '0'.toNat)) 0)
  else none

/-- `datetime.strptime(s, '%Y-%m-%d')`: exactly four year digits, one or two
month and day digits, the whole string consumed, and calendar validity as
enforced by the `datetime` constructor. -/
def parseDate (s : String) : Option Date :=
  match s.splitOn "-" with
  | [ys, ms, ds] =>
    match digitsToNat? ys.data, digitsToNat? ms.data, digitsToNat? ds.data with
    | some y, some m, some d =>
      if ys.length = 4 ∧ ms.length ≤ 2 ∧ ds.length ≤ 2 ∧
          1 ≤ y ∧ 1 ≤ m ∧ m ≤ 12 ∧ 1 ≤ d ∧ d ≤ daysInMonth y m then
        some ⟨y, m, d⟩
      else none
    | _, _, _ => none
  | _ => none

/-- `date.toordinal()`: day number in the proleptic Gregorian calendar.
Python compares `date` objects and subtracts them through this ordinal. -/
def dateOrd (dt : Date) : Nat :=
  let y := dt.year - 1
  let daysBeforeYear := 365 * y + y / 4 - y / 100 + y / 400
  let dbm := [0, 31, 59, 90, 120, 151, 181, 212, 243, 273, 304, 334].getD (dt.month - 1) 0
  let leapAdd := if 3 ≤ dt.month ∧ isLeapYear dt.year then 1 else 0
  daysBeforeYear + dbm + leapAdd + dt.day

/-! ## Rows and the Date Filter (`_filter_by_date`, lines 369-394) -/

/-- One parsed table row (the row dict).  `emoji = none` models the `emoji`
key being absent from the dict (short rows are not padded; see claim C9);
`tags` is set by the Tag Normalizer, `lat`/`lng` by the Location Resolver. -/
structure Row where
  name : String
  location : String
  sublocation : String
  start_date : String
  start_time : String
  end_date : String
  end_time : String
  description : String
  url : String
  hashtags : String
  emoji : Option String
  tags : List String := []
  lat : Option ℚ := none
  lng : Option ℚ := none
deriving DecidableEq, Repr

/-- `_filter_by_date(row_dict, current_date, future_limit_date)`. -/
def filterByDate (row : Row) (current_date future_limit_date : Date) : Bool :=
  let start_date_str := stripWs row.start_date
  let end_date_str := stripWs row.end_date
  match parseDate start_date_str with
  | none => false
  | some start_date =>
    if dateOrd start_date > dateOrd future_limit_date then false
    else
      match parseDate (if end_date_str ≠ "" then end_date_str else start_date_str) with
      | none => false
      | some effective_end_date =>
        if dateOrd effective_end_date < dateOrd current_date then false
        else if (dateOrd effective_end_date : Int) - (dateOrd start_date : Int) > 400 then
          false
        else true

/-- The effective end date string of a row, per the specification: the
(stripped) `end_date` when present, otherwise the (stripped) `start_date`. -/
def effectiveEndStr (row : Row) : String :=
  if stripWs row.end_date ≠ "" then stripWs row.end_date else stripWs row.start_date

/-- The Date Filter acceptance condition exactly as the specification words it:
the start date parses and is at most the future limit, the effective end date
parses and is at least today, and the span is at most 400 days. -/
def dateFilterSpec (row : Row) (today futureLimit : Date) : Prop :=
  ∃ sd ed : Date,
    parseDate (stripWs row.start_date) = some sd ∧
    parseDate (effectiveEndStr row) = some ed ∧
    dateOrd sd ≤ dateOrd futureLimit ∧
    dateOrd today ≤ dateOrd ed ∧
    (dateOrd ed : Int) - (dateOrd sd : Int) ≤ 400

/-- C5 (confirmed): the Date Filter retains a row exactly under the
specification condition `dateFilterSpec`: the start date parses, starts no
later than the future limit, the effective end date (the end date when
present, otherwise the start date) is no earlier than today, the span is at
most 400 days, and a parse failure of any present date rejects the row. -/
theorem claim_C5 (row : Row) (today futureLimit : Date) :
    filterByDate row today futureLimit = true ↔ dateFilterSpec row today futureLimit := by
  unfold filterByDate dateFilterSpec effectiveEndStr
  rcases hsd : parseDate (stripWs row.start_date) with _ | sd
  · simp [hsd]
  · simp only [hsd]
    rcases hed : parseDate
        (if stripWs row.end_date ≠ "" then stripWs row.end_date else stripWs row.start_date)
      with _ | ed
    · simp only [hed]
      constructor
      · intro h
        split at h
        · cases h
        · cases h
      · rintro ⟨sd2, ed2, hsd2, hed2, -, -, -⟩
        cases hed2
    · simp only [hed]
      constructor
      · intro h
        split at h
        · cases h
        · split at h
          · cases h
          · split at h
            · cases h
            · refine ⟨sd, ed, rfl, rfl, by omega, by omega, by omega⟩
      · rintro ⟨sd2, ed2, hsd2, hed2, h1, h2, h3⟩
        cases hsd2
        cases hed2
        split
        · omega
        · split
          · omega
          · split
            · omega
            · rfl

/-! ## Levenshtein ratio (`_calculate_levenshtein_ratio`, lines 471-495) -/

/-- Standard textbook edit distance: insert/delete/substitute, each of cost 1.
(`irreducible`: keeps unification from unfolding the recursion; all proofs use
the equation lemmas.) -/
@[irreducible] def editDistance : List Char → List Char → Nat
  | [], ys => ys.length
  | x :: xs, [] => (x :: xs).length
  | x :: xs, y :: ys =>
    min (editDistance xs (y :: ys) + 1)
      (min (editDistance (x :: xs) ys + 1)
        (editDistance xs ys + (if x = y then 0 else 1)))
termination_by xs ys => xs.length + ys.length
decreasing_by all_goals (simp only [List.length_cons]; omega)

lemma editDistance_nil_left (ys : List Char) : editDistance [] ys = ys.length := by
  rw [editDistance]

lemma editDistance_nil_right (xs : List Char) : editDistance xs [] = xs.length := by
  cases xs <;> rw [editDistance]

lemma editDistance_cons_cons (x y : Char) (xs ys : List Char) :
    editDistance (x :: xs) (y :: ys) =
      min (editDistance xs (y :: ys) + 1)
        (min (editDistance (x :: xs) ys + 1)
          (editDistance xs ys + (if x = y then 0 else 1))) := by
  rw [editDistance]

/-- The end-recurrence of the edit distance: appending one character to each
side satisfies the same three-way minimum as the front recurrence. -/
lemma editDistance_concat (a b : Char) :
    ∀ (xs ys : List Char),
      editDistance (xs ++ [a]) (ys ++ [b]) =
        min (editDistance xs (ys ++ [b]) + 1)
          (min (editDistance (xs ++ [a]) ys + 1)
            (editDistance xs ys + (if a = b then 0 else 1))) := by
  intro xs
  induction xs with
  | nil =>
    intro ys
    induction ys with
    | nil => simp [editDistance_cons_cons, editDistance_nil_left, editDistance_nil_right]
    | cons y ys' ihy =>
      simp only [List.nil_append, List.cons_append] at ihy ⊢
      rw [editDistance_cons_cons a y [] (ys' ++ [b]), ihy,
        editDistance_cons_cons a y [] ys']
      simp only [editDistance_nil_left, List.length_append, List.length_cons,
        List.length_nil]
      apply le_antisymm <;>
        simp only [le_min_iff, min_le_iff, Nat.add_min_add_right] <;>
        omega
  | cons x xs' ihx =>
    intro ys
    induction ys with
    | nil =>
      have hx := ihx []
      simp only [List.nil_append, List.cons_append] at hx ⊢
      rw [editDistance_cons_cons x b (xs' ++ [a]) [], hx,
        editDistance_cons_cons x b xs' []]
      simp only [editDistance_nil_left, editDistance_nil_right, List.length_append,
        List.length_cons, List.length_nil]
      apply le_antisymm <;>
        simp only [le_min_iff, min_le_iff, Nat.add_min_add_right] <;>
        omega
    | cons y ys' ihy =>
      have hx1 := ihx (y :: ys')
      have hx2 := ihx ys'
      simp only [List.nil_append, List.cons_append] at hx1 hx2 ihy ⊢
      rw [editDistance_cons_cons x y (xs' ++ [a]) (ys' ++ [b]), hx1, ihy, hx2,
        editDistance_cons_cons x y xs' (ys' ++ [b]),
        editDistance_cons_cons x y (xs' ++ [a]) ys',
        editDistance_cons_cons x y xs' ys']
      generalize (if a = b then (0 : Nat) else 1) = cab
      generalize (if x = y then (0 : Nat) else 1) = cxy
      generalize editDistance xs' (y :: ys' ++ [b]) = A1
      generalize editDistance (x :: xs') (ys' ++ [b]) = A2
      generalize editDistance xs' (ys' ++ [b]) = A3
      generalize editDistance (xs' ++ [a]) (y :: ys') = A4
      generalize editDistance (x :: xs' ++ [a]) ys' = A5
      generalize editDistance (x :: xs') ys' = A6
      generalize editDistance xs' (y :: ys') = A7
      generalize editDistance (xs' ++ [a]) ys' = A8
      generalize editDistance xs' ys' = A9
      apply le_antisymm <;>
        simp only [le_min_iff, min_le_iff] <;>
        omega

/-- The edit distance is invariant under reversing both strings. -/
lemma editDistance_reverse : ∀ (xs ys : List Char),
    editDistance xs.reverse ys.reverse = editDistance xs ys := by
  intro xs
  induction xs with
  | nil => intro ys; simp [editDistance_nil_left]
  | cons x xs' ihx =>
    intro ys
    induction ys with
    | nil => simp [editDistance_nil_right]
    | cons y ys' ihy =>
      have h1 : (x :: xs').reverse = xs'.reverse ++ [x] := by simp
      have h2 : (y :: ys').reverse = ys'.reverse ++ [y] := by simp
      rw [h1, h2, editDistance_concat x y xs'.reverse ys'.reverse]
      rw [show ys'.reverse ++ [y] = (y :: ys').reverse by simp, ihx (y :: ys')]
      rw [show xs'.reverse ++ [x] = (x :: xs').reverse by simp, ihy]
      rw [ihx ys', editDistance_cons_cons]

/-- The edit distance is symmetric. -/
lemma editDistance_comm : ∀ (xs ys : List Char), editDistance xs ys = editDistance ys xs := by
  intro xs
  induction xs with
  | nil => intro ys; rw [editDistance_nil_left, editDistance_nil_right]
  | cons x xs' ihx =>
    intro ys
    induction ys with
    | nil => rw [editDistance_nil_left, editDistance_nil_right]
    | cons y ys' ihy =>
      rw [editDistance_cons_cons x y xs' ys', editDistance_cons_cons y x ys' xs']
      rw [ihx (y :: ys'), ← ihy, ihx ys']
      have hcost : (if x = y then 0 else 1) = (if y = x then 0 else 1) := by
        rcases Classical.em (x = y) with h | h
        · simp [h]
        · rw [if_neg h, if_neg (fun hyx => h hyx.symm)]
      rw [hcost]
      apply le_antisymm <;>
        simp only [le_min_iff, min_le_iff, Nat.add_min_add_right] <;>
        omega

/-- The inner loop of the Python DP (building `current_row`): `prev` is the
part of `previous_row` not yet consumed and `last` the value just appended to
the current row (`insertions = prev[j+1]+1`, `deletions = current[j]+1`,
`substitutions = prev[j]+cost`). -/
def dpRowAux (c1 : Char) : List Char → List Nat → Nat → List Nat
  | [], _, _ => []
  | c2 :: s2', p0 :: p1 :: ps, last =>
    let v := min (p1 + 1) (min (last + 1) (p0 + (if c1 = c2 then 0 else 1)))
    v :: dpRowAux c1 s2' (p1 :: ps) v
  | _ :: _, _, _ => []

/-- The outer loop of the Python DP (`for i, c1 in enumerate(s1)`). -/
def levLoop (s2 : List Char) : List Char → Nat → List Nat → List Nat
  | [], _, prev => prev
  | c1 :: s1', i, prev => levLoop s2 s1' (i + 1) ((i + 1) :: dpRowAux c1 s2 prev (i + 1))

/-- The Python DP distance: initial row `range(len(s2)+1)`, result
`previous_row[-1]`. -/
def levDist (s1 s2 : List Char) : Nat :=
  (levLoop s2 s1 0 (List.range (s2.length + 1))).getLastD 0

/-- The row of edit distances between `u` and the successive extensions of the
column string `v` by the characters of `s2` (each consed in front). -/
def edCols (u : List Char) : List Char → List Char → List Nat
  | v, [] => [editDistance u v]
  | v, c :: s2' => editDistance u v :: edCols u (c :: v) s2'

lemma edCols_cons_shape (u v : List Char) (s2 : List Char) :
    edCols u v s2 = editDistance u v :: (edCols u v s2).tail := by
  cases s2 <;> rfl

lemma dpRowAux_spec (c1 : Char) (u : List Char) :
    ∀ (s2 v : List Char),
      dpRowAux c1 s2 (edCols u v s2) (editDistance (c1 :: u) v) =
        (edCols (c1 :: u) v s2).tail := by
  intro s2
  induction s2 with
  | nil => intro v; rfl
  | cons c2 s2' ih =>
    intro v
    cases s2' with
    | nil =>
      simp only [edCols, dpRowAux, List.tail_cons]
      rw [← editDistance_cons_cons c1 c2 u v]
    | cons c3 s2'' =>
      have ih2 := ih (c2 :: v)
      simp only [edCols, dpRowAux, List.tail_cons] at ih2 ⊢
      rw [← editDistance_cons_cons c1 c2 u v, ih2]

lemma levLoop_spec (s2 : List Char) :
    ∀ (s1rem u : List Char),
      levLoop s2 s1rem u.length (edCols u [] s2) = edCols (s1rem.reverse ++ u) [] s2 := by
  intro s1rem
  induction s1rem with
  | nil => intro u; simp [levLoop]
  | cons c1 s1' ih =>
    intro u
    simp only [levLoop]
    have hspec := dpRowAux_spec c1 u s2 []
    rw [editDistance_nil_right] at hspec
    simp only [List.length_cons] at hspec
    rw [hspec]
    have hshape : edCols (c1 :: u) [] s2 = (u.length + 1) :: (edCols (c1 :: u) [] s2).tail := by
      have h := edCols_cons_shape (c1 :: u) [] s2
      rw [editDistance_nil_right] at h
      simp only [List.length_cons] at h
      exact h
    rw [← hshape]
    have hih := ih (c1 :: u)
    simp only [List.length_cons] at hih
    rw [hih]
    simp [List.reverse_cons, List.append_assoc]

lemma edCols_nil_left : ∀ (s2 v : List Char),
    edCols [] v s2 = (List.range (s2.length + 1)).map (fun j => v.length + j) := by
  intro s2
  induction s2 with
  | nil =>
    intro v
    simp [edCols, editDistance_nil_left, List.range_succ_eq_map]
  | cons c s2' ih =>
    intro v
    simp only [edCols, editDistance_nil_left, List.length_cons]
    rw [ih (c :: v)]
    rw [List.range_succ_eq_map (s2'.length + 1)]
    simp only [List.map_cons, List.map_map, List.length_cons]
    have h1 : v.length + 0 = v.length := by omega
    rw [h1]
    exact congrArg _ (List.map_congr_left fun j _ => by
      simp only [Function.comp_apply]
      omega)

lemma edCols_getLastD (u : List Char) :
    ∀ (s2 v : List Char) (d : Nat),
      (edCols u v s2).getLastD d = editDistance u (s2.reverse ++ v) := by
  intro s2
  induction s2 with
  | nil => intro v d; simp [edCols]
  | cons c s2' ih =>
    intro v d
    simp only [edCols, List.getLastD_cons]
    rw [ih (c :: v) (editDistance u v)]
    simp [List.append_assoc]

/-- The Python row DP computes the textbook edit distance. -/
lemma levDist_eq_editDistance (s1 s2 : List Char) : levDist s1 s2 = editDistance s1 s2 := by
  unfold levDist
  have h0 : List.range (s2.length + 1) = edCols [] [] s2 := by
    rw [edCols_nil_left s2 []]
    simp
  rw [h0]
  have h1 := levLoop_spec s2 s1 []
  simp only [List.length_nil] at h1
  rw [h1, List.append_nil, edCols_getLastD, List.append_nil, editDistance_reverse]

/-- The tail of `_calculate_levenshtein_ratio` once the recursion has put the
longer string first: the row DP followed by the ratio formula (the
`len(s2) == 0` branch is unreachable from `levRatio` but kept faithfully). -/
def levRatioCore (s1 s2 : List Char) : ℚ :=
  if s2.length = 0 then 1
  else ((s1.length + s2.length : ℚ) - levDist s1 s2) / ((s1.length : ℚ) + (s2.length : ℚ))

/-- `_calculate_levenshtein_ratio` on character lists: `0.0` when either input
is empty, else the argument swap putting the longer string first, then the DP. -/
def levRatio (s1 s2 : List Char) : ℚ :=
  if s1 = [] ∨ s2 = [] then 0
  else if s1.length < s2.length then levRatioCore s2 s1
  else levRatioCore s1 s2

/-- `_calculate_levenshtein_ratio` on Python strings. -/
def calculateLevenshteinRatio (s1 s2 : String) : ℚ :=
  levRatio s1.data s2.data

lemma levRatio_formula (a b : List Char) (h : a ≠ [] ∨ b ≠ []) :
    levRatio a b =
      ((a.length + b.length : ℚ) - editDistance a b) / ((a.length : ℚ) + b.length) := by
  unfold levRatio levRatioCore
  by_cases hab : a = [] ∨ b = []
  · rw [if_pos hab]
    rcases hab with rfl | rfl
    · rcases h with h | h
      · cases h rfl
      · rw [editDistance_nil_left]
        simp
    · rcases h with h | h
      · rw [editDistance_nil_right]
        simp
      · cases h rfl
  · rw [if_neg hab]
    push_neg at hab
    obtain ⟨ha, hb⟩ := hab
    by_cases hlen : a.length < b.length
    · rw [if_pos hlen]
      have ha0 : ¬(a.length = 0) := by simpa [List.length_eq_zero] using ha
      rw [if_neg ha0, levDist_eq_editDistance, editDistance_comm b a]
      ring_nf
    · rw [if_neg hlen]
      have hb0 : ¬(b.length = 0) := by simpa [List.length_eq_zero] using hb
      rw [if_neg hb0, levDist_eq_editDistance]

lemma data_ne_nil_of_ne_empty {s : String} (h : s ≠ "") : s.data ≠ [] := by
  intro hd
  exact h (String.ext (by simp [hd]))

/-! ### Claim C6 -/

/-- C6 (confirmed): for every pair of strings with at least one non-empty, the
resolver's Levenshtein similarity equals
`(len(a)+len(b)-editDistance(a,b)) / (len(a)+len(b))` for the standard
dynamic-programming edit distance with unit insert/delete/substitute costs. -/
theorem claim_C6 (a b : String) (h : a ≠ "" ∨ b ≠ "") :
    calculateLevenshteinRatio a b =
      ((a.data.length + b.data.length : ℚ) - editDistance a.data b.data) /
        ((a.data.length : ℚ) + b.data.length) := by
  unfold calculateLevenshteinRatio
  apply levRatio_formula
  rcases h with h | h
  · exact Or.inl (data_ne_nil_of_ne_empty h)
  · exact Or.inr (data_ne_nil_of_ne_empty h)

/-- C6, witness: the theorem applied at `"kitten"`, `"sitting"`. -/
theorem claim_C6_witness :
    (("kitten" : String) ≠ "" ∨ ("sitting" : String) ≠ "") ∧
      calculateLevenshteinRatio "kitten" "sitting" =
        (("kitten".data.length + "sitting".data.length : ℚ) -
            editDistance "kitten".data "sitting".data) /
          (("kitten".data.length : ℚ) + "sitting".data.length) :=
  ⟨Or.inl (by decide), claim_C6 "kitten" "sitting" (Or.inl (by decide))⟩

/-! ## Location Resolver (`_normalize_location_name`, `_get_location_coords`,
lines 402-440 and 497-589) -/

/-- Python substring containment (`pat in s`) on character lists. -/
def subOf (pat : List Char) : List Char → Bool
  | [] => pat.isEmpty
  | c :: rest => pat.isPrefixOf (c :: rest) || subOf pat rest

/-- Python regex `\w` (ASCII range). -/
def isWordChar (c : Char) : Bool := c.isAlphanum || c = '_'

def boroughs : List String := ["queens", "bronx", "brooklyn", "manhattan", "staten island"]

def geoSuffixes : List String :=
  ["nyc", "new york", "brooklyn", "manhattan", "queens", "bronx", "staten island"]

/-- The borough-suffix removal loop (lines 431-437): the first geographic
suffix that ends the string (preceded by a space, with enough left over) is
cut off, the result stripped, and the loop exits. -/
def stripGeoSuffix (normalized : String) : String :=
  match geoSuffixes.find? (fun suffix =>
      (" " ++ suffix).data.isSuffixOf normalized.data &&
        decide (normalized.data.length > suffix.data.length + 2)) with
  | some suffix =>
    stripWs ⟨normalized.data.take (normalized.data.length - (" " ++ suffix).data.length)⟩
  | none => normalized

/-- `_normalize_location_name`.  The final `" ".join(normalized.split())` is
modelled as whitespace collapse plus strip, which produces the same string. -/
def normalizeLocationName (name : String) : String :=
  if name = "" then ""
  else
    let original_lower := lowerStr name
    let has_dash_before_borough := boroughs.any (fun b =>
      subOf ("- " ++ b).data original_lower.data ||
        subOf ("_" ++ b).data original_lower.data)
    let normalized : String := ⟨original_lower.data.filter (fun c => isWordChar c || isSpaceCh c)⟩
    if normalized ∈ (["virtual", "online", "livestream"] : List String) then ""
    else
      let normalized :=
        if normalized.data.length > 15 ∧ "the ".data.isPrefixOf normalized.data then
          (⟨normalized.data.drop 4⟩ : String)
        else normalized
      if normalized ∈ geoSuffixes then ""
      else
        let normalized :=
          if ¬has_dash_before_borough then stripGeoSuffix normalized else normalized
        ⟨stripWsL (collapseWs normalized.data)⟩

/-- One location entry's coordinate/emoji projection (`{lat, lng, emoji}`). -/
structure LocInfo where
  lat : ℚ
  lng : ℚ
  emoji : Option String
deriving DecidableEq, Repr

/-- The LocationIndex: an insertion-ordered dict from normalized names. -/
def LocationsMap := List (String × LocInfo)

/-- Python dict lookup (`map.get(k)` / `k in map`). -/
def lookupLoc (m : List (String × LocInfo)) (k : String) : Option LocInfo :=
  (m.find? (fun p => p.1 == k)).map (·.2)

/-- The candidacy pre-filter for one index key (lines 536-545). -/
def isCandidateKey (key nl ns nn full : String) : Bool :=
  (key == nl) ||
  (decide (nn.data.length > 5) && (key == nn)) ||
  (decide (key.data.length > 5) && key.data.isPrefixOf full.data) ||
  (decide (key.data.length > 5) && key.data.isSuffixOf full.data) ||
  (decide (key.data.length > 5) && subOf key.data full.data) ||
  (decide (nl.data.length > 5) && (nl != "") && subOf nl.data key.data) ||
  (decide (ns.data.length > 5) && (ns != "") && subOf ns.data key.data)

/-- The score of one candidate key (lines 548-562): exact event-name match
`1.0`; prefix/suffix match `0.9 + (len(key)/len(full))*0.09`; otherwise the
maximum of the Levenshtein similarities against the location, the combined
location, and (when long enough) the event name. -/
def scoreKey (key nl ns nn full : String) : ℚ :=
  if nn.data.length > 5 ∧ key = nn then 1
  else if key.data.length > 5 ∧
      (key.data.isPrefixOf full.data ∨ key.data.isSuffixOf full.data) then
    9/10 + ((key.data.length : ℚ) / (full.data.length : ℚ)) * (9/100)
  else
    max (levRatio nl.data key.data)
      (max (levRatio full.data key.data)
        (if nn.data.length > 5 then levRatio nn.data key.data else 0))

/-- The best-scoring-candidate scan (lines 524-567): keep the highest score at
least `0.85`, strict improvement only, so ties resolve to the first key. -/
def scanBest (m : List (String × LocInfo)) (nl ns nn full : String) : Option String × ℚ :=
  m.foldl (fun acc p =>
    if stripWs p.1 = "" then acc
    else if isCandidateKey p.1 nl ns nn full then
      let score := scoreKey p.1 nl ns nn full
      if score ≥ 85/100 ∧ score > acc.2 then (some p.1, score) else acc
    else acc) (none, -1)

/-- The source-site-name fallback scan (lines 570-577). -/
def scanFallback (m : List (String × LocInfo)) (source_site_name : String) : Option String × ℚ :=
  let normalized_source_site := normalizeLocationName source_site_name
  m.foldl (fun acc p =>
    let score := levRatio normalized_source_site.data (normalizeLocationName p.1).data
    if score ≥ 85/100 ∧ score > acc.2 then (some p.1, score) else acc) (none, -1)

/-- `_get_location_coords`. -/
def getLocationCoords (location_name_raw sublocation_name_raw source_site_name
    event_name_raw : String) (locations_map : List (String × LocInfo)) : Option LocInfo :=
  let nl := normalizeLocationName location_name_raw
  let ns := normalizeLocationName sublocation_name_raw
  let nn := normalizeLocationName event_name_raw
  let full := stripWs (nl ++ " " ++ ns)
  if full.data.length > 5 ∧ (lookupLoc locations_map full).isSome then
    lookupLoc locations_map full
  else if full.data.length > 5 ∧ (lookupLoc locations_map nl).isSome then
    lookupLoc locations_map nl
  else if nn.data.length > 5 ∧ (lookupLoc locations_map nn).isSome then
    lookupLoc locations_map nn
  else
    let best :=
      if full.data.length > 5 ∨ nn.data.length > 5 then
        scanBest locations_map nl ns nn full
      else (none, -1)
    let best := if best.1 = none then scanFallback locations_map source_site_name else best
    match best.1 with
    | some k => lookupLoc locations_map k
    | none => none

/-! ### Claim C1 -/

lemma score_k1_eval :
    scoreKey "aaaaaa" "aaaaaaaaaaaaaaaaaaaa" "" "" "aaaaaaaaaaaaaaaaaaaa" =
      9/10 + ((6 : ℚ)/20) * (9/100) := by
  unfold scoreKey
  rw [if_neg (by decide), if_pos (by decide)]
  have h1 : ("aaaaaa" : String).data.length = 6 := by decide
  have h2 : ("aaaaaaaaaaaaaaaaaaaa" : String).data.length = 20 := by decide
  rw [h1, h2]
  norm_num

set_option maxRecDepth 8192 in
lemma levRatio_k2_eval :
    levRatio ("aaaaaaaaaaaaaaaaaaaa" : String).data ("aaaaaaaaaaaaaaaaaaaab" : String).data =
      40/41 := by
  unfold levRatio
  rw [if_neg (by decide), if_pos (by decide)]
  unfold levRatioCore
  rw [if_neg (by decide)]
  have hd : levDist ("aaaaaaaaaaaaaaaaaaaab" : String).data
      ("aaaaaaaaaaaaaaaaaaaa" : String).data = 1 := by decide
  have h1 : ("aaaaaaaaaaaaaaaaaaaab" : String).data.length = 21 := by decide
  have h2 : ("aaaaaaaaaaaaaaaaaaaa" : String).data.length = 20 := by decide
  rw [hd, h1, h2]
  norm_num

lemma score_k2_eval :
    scoreKey "aaaaaaaaaaaaaaaaaaaab" "aaaaaaaaaaaaaaaaaaaa" "" "" "aaaaaaaaaaaaaaaaaaaa" =
      40/41 := by
  unfold scoreKey
  rw [if_neg (by decide), if_neg (by decide), if_neg (by decide), levRatio_k2_eval]
  norm_num

lemma scanBest_eval :
    scanBest [("aaaaaa", ⟨1, 1, none⟩), ("aaaaaaaaaaaaaaaaaaaab", ⟨2, 2, none⟩)]
        "aaaaaaaaaaaaaaaaaaaa" "" "" "aaaaaaaaaaaaaaaaaaaa" =
      (some "aaaaaaaaaaaaaaaaaaaab", 40/41) := by
  unfold scanBest
  simp only [List.foldl_cons, List.foldl_nil]
  rw [if_neg (show ¬(stripWs "aaaaaa" = "") from by decide)]
  rw [if_pos (show isCandidateKey "aaaaaa" "aaaaaaaaaaaaaaaaaaaa" "" ""
      "aaaaaaaaaaaaaaaaaaaa" = true from by decide)]
  simp only [score_k1_eval]
  rw [if_pos (show (9/10 + ((6 : ℚ)/20) * (9/100) ≥ 85/100 ∧
      9/10 + ((6 : ℚ)/20) * (9/100) > (((none : Option String), (-1 : ℚ))).2) from by
    constructor <;> norm_num)]
  rw [if_neg (show ¬(stripWs "aaaaaaaaaaaaaaaaaaaab" = "") from by decide)]
  rw [if_pos (show isCandidateKey "aaaaaaaaaaaaaaaaaaaab" "aaaaaaaaaaaaaaaaaaaa" "" ""
      "aaaaaaaaaaaaaaaaaaaa" = true from by decide)]
  simp only [score_k2_eval]
  rw [if_pos (show ((40 : ℚ)/41 ≥ 85/100 ∧
      (40 : ℚ)/41 > ((some "aaaaaa", 9/10 + ((6 : ℚ)/20) * (9/100))).2) from by
    constructor <;> norm_num)]

/-- C1, counterexample: a prefix (affix) candidate whose score is NOT greater
than an edit-distance candidate's score, so the resolver selects the
edit-distance match, contradicting "an affix match is always selected over any
edit-distance match".  The combined location string is twenty `a`s; the key
`"aaaaaa"` is a qualifying prefix (score `0.9 + (6/20)*0.09 = 0.927`) while
the twenty-one-character key containing the location string is scored by
Levenshtein similarity as `40/41 ≈ 0.976` and wins. -/
theorem claim_C1_counterexample :
    ("aaaaaa".data.isPrefixOf "aaaaaaaaaaaaaaaaaaaa".data = true) ∧
    (scoreKey "aaaaaa" "aaaaaaaaaaaaaaaaaaaa" "" "" "aaaaaaaaaaaaaaaaaaaa" <
      scoreKey "aaaaaaaaaaaaaaaaaaaab" "aaaaaaaaaaaaaaaaaaaa" "" "" "aaaaaaaaaaaaaaaaaaaa") ∧
    (getLocationCoords "aaaaaaaaaaaaaaaaaaaa" "" "some site" ""
        [("aaaaaa", ⟨1, 1, none⟩), ("aaaaaaaaaaaaaaaaaaaab", ⟨2, 2, none⟩)] =
      some ⟨2, 2, none⟩) := by
  refine ⟨by decide, ?_, ?_⟩
  · rw [score_k1_eval, score_k2_eval]
    norm_num
  · unfold getLocationCoords
    have hnl : normalizeLocationName "aaaaaaaaaaaaaaaaaaaa" = "aaaaaaaaaaaaaaaaaaaa" := by
      decide
    have hns : normalizeLocationName "" = "" := by decide
    have hfull : stripWs ("aaaaaaaaaaaaaaaaaaaa" ++ " " ++ "") = "aaaaaaaaaaaaaaaaaaaa" := by
      decide
    simp only [hnl, hns, hfull]
    rw [if_neg (show ¬(("aaaaaaaaaaaaaaaaaaaa" : String).data.length > 5 ∧
      (lookupLoc [("aaaaaa", ⟨1, 1, none⟩), ("aaaaaaaaaaaaaaaaaaaab", ⟨2, 2, none⟩)]
        "aaaaaaaaaaaaaaaaaaaa").isSome) from by decide)]
    rw [if_neg (show ¬(("aaaaaaaaaaaaaaaaaaaa" : String).data.length > 5 ∧
      (lookupLoc [("aaaaaa", ⟨1, 1, none⟩), ("aaaaaaaaaaaaaaaaaaaab", ⟨2, 2, none⟩)]
        "aaaaaaaaaaaaaaaaaaaa").isSome) from by decide)]
    rw [if_neg (show ¬(("" : String).data.length > 5 ∧
      (lookupLoc [("aaaaaa", ⟨1, 1, none⟩), ("aaaaaaaaaaaaaaaaaaaab", ⟨2, 2, none⟩)]
        "").isSome) from by decide)]
    rw [if_pos (show (("aaaaaaaaaaaaaaaaaaaa" : String).data.length > 5 ∨
      ("" : String).data.length > 5) from by decide)]
    rw [scanBest_eval]
    rw [if_neg (show ¬(((some "aaaaaaaaaaaaaaaaaaaab", (40 : ℚ)/41)).1 =
      (none : Option String)) from by decide)]
    decide

/-- C1, amended: for a key qualifying as a prefix/suffix (affix) match (and not
an exact event-name match), the score is exactly `0.9 + (len(key)/len(combined))*0.09`,
and this score is strictly between `0.9` and `1.0`.  (The original claim's
further assertion — that this score is strictly greater than every
edit-distance candidate's score, so an affix match is always selected — is
false; see the counterexample.) -/
theorem claim_C1_amended (key nl ns nn full : String)
    (hlen : 5 < key.data.length)
    (haff : key.data.isPrefixOf full.data = true ∨ key.data.isSuffixOf full.data = true)
    (hname : ¬(5 < nn.data.length ∧ key = nn)) :
    scoreKey key nl ns nn full =
      9/10 + ((key.data.length : ℚ) / (full.data.length : ℚ)) * (9/100) ∧
    9/10 < scoreKey key nl ns nn full ∧ scoreKey key nl ns nn full < 1 := by
  have hkf : key.data.length ≤ full.data.length := by
    rcases haff with h | h
    · exact (List.isPrefixOf_iff_prefix.mp h).length_le
    · exact (List.isSuffixOf_iff_suffix.mp h).length_le
  have heq : scoreKey key nl ns nn full =
      9/10 + ((key.data.length : ℚ) / (full.data.length : ℚ)) * (9/100) := by
    unfold scoreKey
    rw [if_neg hname, if_pos (show key.data.length > 5 ∧
      (key.data.isPrefixOf full.data = true ∨ key.data.isSuffixOf full.data = true) from
        ⟨hlen, haff⟩)]
  have h6 : (6 : ℚ) ≤ (key.data.length : ℚ) := by exact_mod_cast hlen
  have hle : (key.data.length : ℚ) ≤ (full.data.length : ℚ) := by exact_mod_cast hkf
  have hfpos : (0 : ℚ) < (full.data.length : ℚ) := by linarith
  have hqpos : 0 < (key.data.length : ℚ) / (full.data.length : ℚ) :=
    div_pos (by linarith) hfpos
  have hqle : (key.data.length : ℚ) / (full.data.length : ℚ) ≤ 1 :=
    div_le_one_of_le hle (le_of_lt hfpos)
  refine ⟨heq, ?_, ?_⟩
  · rw [heq]
    nlinarith [hqpos]
  · rw [heq]
    nlinarith [hqle]

/-- C1, witness: the amended theorem applied at key `"abcdef"`, combined
location string `"abcdefgh"`. -/
theorem claim_C1_witness :
    5 < "abcdef".data.length ∧
    ("abcdef".data.isPrefixOf "abcdefgh".data = true) ∧
    (scoreKey "abcdef" "somewhere" "" "" "abcdefgh" =
        9/10 + (("abcdef".data.length : ℚ) / ("abcdefgh".data.length : ℚ)) * (9/100) ∧
      9/10 < scoreKey "abcdef" "somewhere" "" "" "abcdefgh" ∧
      scoreKey "abcdef" "somewhere" "" "" "abcdefgh" < 1) :=
  ⟨by decide, by decide,
    claim_C1_amended "abcdef" "somewhere" "" "" "abcdefgh" (by decide)
      (Or.inl (by decide)) (by decide)⟩

/-! ## Occurrence Grouper (`_group_event_occurrences`, lines 238-367) -/

/-- One date/time occurrence: `(start_date, start_time, end_date, end_time)`. -/
abbrev Occ := String × String × String × String

/-- A grouped event (the `base_event` dict).  `sublocation = none` / the
absence of `short_name` model the keys being absent. -/
structure GroupedEvent where
  name : String
  location : String
  description : String
  tags : List String
  emoji : Option String
  lat : Option ℚ
  lng : Option ℚ
  sublocation : Option String
  urls : List String
  occurrences : List Occ
  short_name : Option String
deriving DecidableEq, Repr

/-- `_standardize_time`. -/
def standardizeTime (time_str : String) : String :=
  if time_str = "" then ""
  else
    let normalized : String := ⟨((lowerStr time_str).data.filter (· ≠ ' ')).filter (· ≠ '.')⟩
    if normalized = "allday" then ""
    else ⟨replaceAll ":00".data [] normalized.data⟩

/-- `normalize_name` of the Cross-Batch Deduplicator (export_events.py lines
71-79); `normalize_name_for_grouping` (process_responses.py lines 241-251) has
the identical body behind an empty-string guard. -/
def normalizeEventName (name : String) : String :=
  let no_underscores : String := ⟨name.data.filter (· ≠ '_')⟩
  let no_punct : String :=
    ⟨(lowerStr (stripWs no_underscores)).data.filter (fun c => isWordChar c || isSpaceCh c)⟩
  ⟨stripWsL (collapseWs no_punct.data)⟩

/-- `normalize_name_for_grouping`. -/
def normalizeNameForGrouping (name : String) : String :=
  if name = "" then "" else normalizeEventName name

/-- `find_matching_group_key`: exact key, else the first existing key with an
equal normalized form or (when both are at least five characters) a substring
relation between the normalized forms, else the name itself. -/
def findMatchingGroupKey (event_name : String) (gm : List (String × GroupedEvent)) : String :=
  if (gm.find? (fun p => p.1 == event_name)).isSome then event_name
  else
    match gm.find? (fun p =>
        let ne := normalizeNameForGrouping event_name
        let nx := normalizeNameForGrouping p.1
        (ne == nx) ||
          (decide (ne.data.length ≥ 5) && decide (nx.data.length ≥ 5) &&
            (subOf ne.data nx.data || subOf nx.data ne.data))) with
    | some p => p.1
    | none => event_name

/-- The dropped-name check (`CANCELED:` etc., line 283). -/
def isCanceledName (name : String) : Bool :=
  (["CANCELED:", "CANCELLED:", "KIM:", "KIM -"] : List String).any
    (fun p => p.data.isPrefixOf (upperStr name).data)

/-- The mostly-uppercase test (lines 288-293): the name has letters, is longer
than five characters, and more than half of its letters are uppercase. -/
def shouldRecapitalize (event_name : String) : Bool :=
  let alpha := event_name.data.filter Char.isAlpha
  (!alpha.isEmpty) && decide (event_name.data.length > 5) &&
    decide (alpha.length < 2 * (alpha.filter Char.isUpper).length)

/-- In-place update of the insertion-ordered dict entry with key `k`. -/
def updateA (gm : List (String × GroupedEvent)) (k : String)
    (f : GroupedEvent → GroupedEvent) : List (String × GroupedEvent) :=
  match gm with
  | [] => []
  | p :: rest => if p.1 = k then (p.1, f p.2) :: rest else p :: updateA rest k f

/-- Creation of a new group entry (lines 338-351). -/
def baseEventOf (row : Row) : GroupedEvent :=
  { name := row.name, location := row.location, description := row.description,
    tags := row.tags, emoji := row.emoji, lat := row.lat, lng := row.lng,
    occurrences := [],
    sublocation :=
      if stripWs row.sublocation ≠ "" ∧ upperStr (stripWs row.sublocation) ≠ "N/A" then
        some row.sublocation
      else none,
    urls := if stripWs row.url ≠ "" then [stripWs row.url] else [],
    short_name := none }

/-- The merge of a subsequent row into an existing group (lines 353-361):
prefer the shorter name, then append a new non-empty URL. -/
def mergeInto (event_name url : String) (ev : GroupedEvent) : GroupedEvent :=
  let ev :=
    if event_name.data.length < ev.name.data.length then {ev with name := event_name} else ev
  if url ≠ "" ∧ url ∉ ev.urls then {ev with urls := ev.urls ++ [url]} else ev

/-- The occurrence append (lines 363-365): only when not already present. -/
def addOcc (occurrence : Occ) (ev : GroupedEvent) : GroupedEvent :=
  if occurrence ∈ ev.occurrences then ev
  else {ev with occurrences := ev.occurrences ++ [occurrence]}

/-- The occurrence tuple of a row (lines 320-333): the end date is cleared
when equal to the start date; times are standardized. -/
def occOf (row : Row) : Occ :=
  (row.start_date, standardizeTime row.start_time,
    (if row.start_date ≠ "" ∧ row.end_date ≠ "" ∧ row.start_date = row.end_date then ""
      else row.end_date),
    standardizeTime row.end_time)

/-- The conditional mostly-uppercase renaming of a row (lines 286-318).  The
regex cascade normalizing the capitalization is abstracted by the `fixCaps`
parameter; every claim below holds for every `fixCaps`. -/
def renameOf (fixCaps : String → String) (row : Row) : Row :=
  {row with name := if shouldRecapitalize row.name then fixCaps row.name else row.name}

/-- One iteration of the grouping loop (lines 278-365). -/
def groupStep (fixCaps : String → String) (gm : List (String × GroupedEvent))
    (row : Row) : List (String × GroupedEvent) :=
  if row.name = "" then gm
  else if isCanceledName row.name then gm
  else
    let row := renameOf fixCaps row
    let group_key := findMatchingGroupKey row.name gm
    let gm2 :=
      if (gm.find? (fun p => p.1 == group_key)).isSome then
        updateA gm group_key (mergeInto row.name (stripWs row.url))
      else gm ++ [(group_key, baseEventOf row)]
    updateA gm2 group_key (addOcc (occOf row))

/-- `_group_event_occurrences`. -/
def groupEventOccurrences (fixCaps : String → String) (rows : List Row) : List GroupedEvent :=
  (rows.foldl (groupStep fixCaps) []).map (·.2)


/-! ### Claim C7 -/

/-- Every group entry has a non-empty, duplicate-free occurrence list. -/
def occInv (gm : List (String × GroupedEvent)) : Prop :=
  ∀ p ∈ gm, p.2.occurrences ≠ [] ∧ p.2.occurrences.Nodup

lemma mem_updateA {gm : List (String × GroupedEvent)} {k : String}
    {f : GroupedEvent → GroupedEvent} {p : String × GroupedEvent}
    (h : p ∈ updateA gm k f) : p ∈ gm ∨ ∃ q ∈ gm, p = (q.1, f q.2) := by
  induction gm with
  | nil => simp [updateA] at h
  | cons q rest ih =>
    unfold updateA at h
    split at h
    · rcases List.mem_cons.mp h with rfl | h
      · right; exact ⟨q, List.mem_cons_self _ _, rfl⟩
      · left; exact List.mem_cons_of_mem _ h
    · rcases List.mem_cons.mp h with rfl | h
      · left; exact List.mem_cons_self _ _
      · rcases ih h with h | ⟨q2, hq2, rfl⟩
        · left; exact List.mem_cons_of_mem _ h
        · right; exact ⟨q2, List.mem_cons_of_mem _ hq2, rfl⟩

lemma updateA_append_of_find_none {gm : List (String × GroupedEvent)} {k : String}
    (v : GroupedEvent) (f : GroupedEvent → GroupedEvent)
    (h : gm.find? (fun p => p.1 == k) = none) :
    updateA (gm ++ [(k, v)]) k f = gm ++ [(k, f v)] := by
  induction gm with
  | nil => simp [updateA]
  | cons q rest ih =>
    rw [List.find?_cons] at h
    split at h
    · cases h
    next hq =>
      have hne : ¬(q.1 = k) := by simpa using hq
      simp only [List.cons_append, updateA, if_neg hne, List.append_eq]
      rw [ih h]

lemma nodup_append_singleton {α : Type*} {l : List α} {a : α} (h1 : l.Nodup) (h2 : a ∉ l) :
    (l ++ [a]).Nodup := by
  simp only [List.nodup_append, List.nodup_cons, List.not_mem_nil, not_false_iff,
    List.nodup_nil, and_true, true_and]
  refine ⟨h1, ?_⟩
  intro b hb
  simp only [List.mem_singleton]
  intro hba
  exact h2 (hba ▸ hb)

lemma occInv_updateA {gm : List (String × GroupedEvent)} {k : String}
    {f : GroupedEvent → GroupedEvent} (h : occInv gm)
    (hf : ∀ v : GroupedEvent, (v.occurrences ≠ [] ∧ v.occurrences.Nodup) →
      ((f v).occurrences ≠ [] ∧ (f v).occurrences.Nodup)) :
    occInv (updateA gm k f) := by
  intro p hp
  rcases mem_updateA hp with h1 | ⟨q, hq, rfl⟩
  · exact h p h1
  · exact hf q.2 (h q hq)

lemma mergeInto_occurrences (event_name url : String) (ev : GroupedEvent) :
    (mergeInto event_name url ev).occurrences = ev.occurrences := by
  simp only [mergeInto]
  split <;> split <;> rfl

lemma addOcc_inv (occurrence : Occ) (v : GroupedEvent)
    (h : v.occurrences ≠ [] ∧ v.occurrences.Nodup) :
    (addOcc occurrence v).occurrences ≠ [] ∧ (addOcc occurrence v).occurrences.Nodup := by
  unfold addOcc
  split
  · exact h
  next hmem =>
    constructor
    · simp
    · exact nodup_append_singleton h.2 hmem

lemma addOcc_base (occurrence : Occ) (row : Row) :
    (addOcc occurrence (baseEventOf row)).occurrences = [occurrence] := by
  simp [addOcc, baseEventOf]

lemma groupStep_occInv (fixCaps : String → String) (gm : List (String × GroupedEvent))
    (row : Row) (h : occInv gm) : occInv (groupStep fixCaps gm row) := by
  simp only [groupStep]
  split
  · exact h
  · split
    · exact h
    · split
      next hf =>
        refine occInv_updateA (occInv_updateA h ?_) (fun v hv => addOcc_inv _ v hv)
        intro v hv
        rw [mergeInto_occurrences]
        exact hv
      next hf =>
        have hnone : gm.find?
            (fun p => p.1 == findMatchingGroupKey (renameOf fixCaps row).name gm) = none := by
          rcases hx : gm.find?
            (fun p => p.1 == findMatchingGroupKey (renameOf fixCaps row).name gm) with _ | v
          · exact hx
          · rw [hx] at hf
            simp at hf
        rw [updateA_append_of_find_none _ _ hnone]
        intro p hp
        rcases List.mem_append.mp hp with hp1 | hp1
        · exact h p hp1
        · simp only [List.mem_singleton] at hp1
          subst hp1
          rw [addOcc_base]
          exact ⟨by simp, by simp⟩

lemma foldl_groupStep_occInv (fixCaps : String → String) :
    ∀ (rows : List Row) (gm : List (String × GroupedEvent)),
      occInv gm → occInv (rows.foldl (groupStep fixCaps) gm) := by
  intro rows
  induction rows with
  | nil => intro gm h; exact h
  | cons r rest ih =>
    intro gm h
    exact ih _ (groupStep_occInv fixCaps gm r h)

/-- C7 (confirmed): every event produced by the Occurrence Grouper has a
non-empty occurrence list containing no duplicate
`(start_date, start_time, end_date, end_time)` tuples — for every input row
sequence and every capitalization normalizer. -/
theorem claim_C7 (fixCaps : String → String) (rows : List Row) (e : GroupedEvent)
    (h : e ∈ groupEventOccurrences fixCaps rows) :
    e.occurrences ≠ [] ∧ e.occurrences.Nodup := by
  unfold groupEventOccurrences at h
  rcases List.mem_map.mp h with ⟨p, hp, rfl⟩
  exact foldl_groupStep_occInv fixCaps rows [] (by intro q hq; cases hq) p hp

/-- A first concrete input row for exercising the grouper. -/
def wRow1 : Row :=
  { name := "Jazz Night", location := "Blue Note", sublocation := "  ",
    start_date := "2025-01-01", start_time := "7 PM", end_date := "",
    end_time := "", description := "live jazz", url := "http://x",
    hashtags := "", emoji := none }

/-- A second concrete input row that merges into the same group. -/
def wRow2 : Row :=
  { name := "Jazz Night", location := "Blue Note", sublocation := "N/A",
    start_date := "2025-01-02", start_time := "8:00 PM", end_date := "2025-01-02",
    end_time := "", description := "live jazz", url := "http://y",
    hashtags := "", emoji := none }

/-- The single group the grouper produces from `wRow1` and `wRow2`. -/
def wGrouped : GroupedEvent :=
  { name := "Jazz Night", location := "Blue Note", description := "live jazz",
    tags := [], emoji := none, lat := none, lng := none, sublocation := none,
    urls := ["http://x", "http://y"],
    occurrences := [("2025-01-01", "7pm", "", ""), ("2025-01-02", "8pm", "", "")],
    short_name := none }

/-- C7 witness: on two concrete rows the grouper produces exactly the event
`wGrouped`, whose occurrence list `claim_C7` shows to be non-empty and
duplicate-free. -/
theorem claim_C7_witness :
    wGrouped ∈ groupEventOccurrences (fun s => s) [wRow1, wRow2] ∧
      wGrouped.occurrences ≠ [] ∧ wGrouped.occurrences.Nodup :=
  ⟨by decide, claim_C7 (fun s => s) [wRow1, wRow2] wGrouped (by decide)⟩


/-! ## The Cross-Batch Deduplicator (`_deduplicate_events`, export_events.py
lines 60-161) -/

/-- An event as seen by `_deduplicate_events`.  Only the keys the function
reads are modelled; `name = none` / `lat = none` / `lng = none` model the
respective dict keys being absent. -/
structure DEvent where
  name : Option String
  lat : Option ℚ
  lng : Option ℚ
  occurrences : List Occ
  urls : List String
  description : String
deriving DecidableEq, Repr

/-- `are_names_similar` (lines 81-101): equal normalized names, or, when both
normalized names have at least five characters, one a substring of the
other.  `normalize_name` (lines 71-79) is the same computation as the
grouper's `normalize_name_for_grouping`, embedded as `normalizeEventName`. -/
def areNamesSimilar (name1 name2 : String) : Bool :=
  let n1 := normalizeEventName name1
  let n2 := normalizeEventName name2
  (n1 == n2) ||
    (decide (n1.data.length ≥ 5) && decide (n2.data.length ≥ 5) &&
      (subOf n1.data n2.data || subOf n2.data n1.data))

/-- The grouping key (lines 107-113): present only when the `name`, `lat` and
`lng` keys exist and `occurrences` is non-empty, in which case it is
`(lat, lng, first occurrence start date)`. -/
def dedupKey (e : DEvent) : Option (ℚ × ℚ × String) :=
  match e.name, e.lat, e.lng, e.occurrences with
  | some _, some la, some ln, o :: _ => some (la, ln, o.1)
  | _, _, _, _ => none

/-- One step of collecting the dict keys of `grouped_events` in first-insertion
order. -/
def keyStep (ks : List (ℚ × ℚ × String)) (e : DEvent) : List (ℚ × ℚ × String) :=
  match dedupKey e with
  | none => ks
  | some k => if k ∈ ks then ks else ks ++ [k]

/-- The keys of `grouped_events` in insertion order. -/
def keyList (events : List DEvent) : List (ℚ × ℚ × String) :=
  events.foldl keyStep []

/-- The value list of `grouped_events` at key `k` (the events appended to that
key, in input order). -/
def groupOf (events : List DEvent) (k : ℚ × ℚ × String) : List DEvent :=
  events.filter (fun e => dedupKey e == some k)

/-- The URL merge (lines 136-141): start from the existing URLs and append the
event's non-empty URLs not already present. -/
def mergeUrls (eventUrls existingUrls : List String) : List String :=
  eventUrls.foldl (fun m url => if url ≠ "" ∧ url ∉ m then m ++ [url] else m)
    existingUrls

/-- The winner of a duplicate pair (lines 143-152): the shorter name, ties
broken towards the strictly longer description, otherwise the existing event;
either way the merged URL list is installed. -/
def mergeWinner (event existing : DEvent) : DEvent :=
  let merged := mergeUrls event.urls existing.urls
  if (event.name.getD "").data.length < (existing.name.getD "").data.length ∨
      ((event.name.getD "").data.length = (existing.name.getD "").data.length ∧
        event.description.data.length > existing.description.data.length) then
    { event with urls := merged }
  else
    { existing with urls := merged }

/-- The scan of `group_unique` (lines 127-156): replace the first
name-similar entry by the winner of the pair, else append. -/
def insertEvent (event : DEvent) : List DEvent → List DEvent
  | [] => [event]
  | x :: rest =>
    if areNamesSimilar (event.name.getD "") (x.name.getD "") then
      mergeWinner event x :: rest
    else x :: insertEvent event rest

/-- Deduplication within one group (lines 126-156). -/
def dedupGroup (group : List DEvent) : List DEvent :=
  group.foldl (fun acc e => insertEvent e acc) []

/-- The contribution of one key to `unique_events` (lines 119-158): singleton
groups are passed through, larger groups are deduplicated. -/
def dedupBlock (events : List DEvent) (k : ℚ × ℚ × String) : List DEvent :=
  if (groupOf events k).length = 1 then groupOf events k
  else dedupGroup (groupOf events k)

/-- `_deduplicate_events`: keyless events are dropped by the grouping loop
(lines 106-114), every key's group is processed separately, and the results
are concatenated in key insertion order. -/
def dedupEvents (events : List DEvent) : List DEvent :=
  ((keyList events).map (dedupBlock events)).join

lemma areNamesSimilar_symm (a b : String) :
    areNamesSimilar a b = areNamesSimilar b a := by
  simp only [areNamesSimilar]
  rcases eq_or_ne (normalizeEventName a) (normalizeEventName b) with h | h
  · rw [h]
  · rw [beq_eq_false_iff_ne.mpr h, beq_eq_false_iff_ne.mpr h.symm]
    simp only [Bool.false_or]
    rw [Bool.or_comm,
      Bool.and_comm (decide ((normalizeEventName a).data.length ≥ 5))
        (decide ((normalizeEventName b).data.length ≥ 5))]

lemma dedupKey_set_urls (e : DEvent) (u : List String) :
    dedupKey { e with urls := u } = dedupKey e := by
  cases e
  rfl

lemma dedupKey_mergeWinner (a b : DEvent) :
    dedupKey (mergeWinner a b) = dedupKey a ∨ dedupKey (mergeWinner a b) = dedupKey b := by
  unfold mergeWinner
  split
  · left; exact dedupKey_set_urls a _
  · right; exact dedupKey_set_urls b _

lemma mem_groupOf_key {events : List DEvent} {k : ℚ × ℚ × String} {x : DEvent}
    (h : x ∈ groupOf events k) : dedupKey x = some k := by
  unfold groupOf at h
  have := List.of_mem_filter h
  simpa using this

lemma insertEvent_key {k : ℚ × ℚ × String} {e : DEvent} (he : dedupKey e = some k) :
    ∀ (acc : List DEvent), (∀ x ∈ acc, dedupKey x = some k) →
      ∀ y ∈ insertEvent e acc, dedupKey y = some k := by
  intro acc
  induction acc with
  | nil =>
    intro _ y hy
    simp only [insertEvent, List.mem_singleton] at hy
    subst hy
    exact he
  | cons a rest ih =>
    intro hacc y hy
    unfold insertEvent at hy
    split at hy
    · rcases List.mem_cons.mp hy with rfl | hy
      · rcases dedupKey_mergeWinner e a with h | h
        · rw [h]; exact he
        · rw [h]; exact hacc a (List.mem_cons_self _ _)
      · exact hacc y (List.mem_cons_of_mem _ hy)
    · rcases List.mem_cons.mp hy with rfl | hy
      · exact hacc y (List.mem_cons_self _ _)
      · exact ih (fun x hx => hacc x (List.mem_cons_of_mem _ hx)) y hy

lemma foldl_insertEvent_key {k : ℚ × ℚ × String} :
    ∀ (g acc : List DEvent), (∀ x ∈ g, dedupKey x = some k) →
      (∀ x ∈ acc, dedupKey x = some k) →
      ∀ y ∈ g.foldl (fun acc e => insertEvent e acc) acc, dedupKey y = some k := by
  intro g
  induction g with
  | nil => intro acc _ hacc y hy; exact hacc y hy
  | cons e rest ih =>
    intro acc hg hacc y hy
    simp only [List.foldl_cons] at hy
    exact ih _ (fun x hx => hg x (List.mem_cons_of_mem _ hx))
      (insertEvent_key (hg e (List.mem_cons_self _ _)) acc hacc) y hy

lemma mem_dedupBlock_key {events : List DEvent} {k : ℚ × ℚ × String} {y : DEvent}
    (h : y ∈ dedupBlock events k) : dedupKey y = some k := by
  unfold dedupBlock at h
  split at h
  · exact mem_groupOf_key h
  · exact foldl_insertEvent_key (groupOf events k) []
      (fun x hx => mem_groupOf_key hx) (by intro x hx; cases hx) y h

lemma keyStep_nodup {ks : List (ℚ × ℚ × String)} (e : DEvent) (h : ks.Nodup) :
    (keyStep ks e).Nodup := by
  unfold keyStep
  split
  · exact h
  · split
    · exact h
    next hmem => exact nodup_append_singleton h hmem

lemma foldl_keyStep_nodup :
    ∀ (es : List DEvent) (ks : List (ℚ × ℚ × String)), ks.Nodup →
      (es.foldl keyStep ks).Nodup := by
  intro es
  induction es with
  | nil => intro ks h; exact h
  | cons e rest ih => intro ks h; exact ih _ (keyStep_nodup e h)

lemma keyList_nodup (events : List DEvent) : (keyList events).Nodup :=
  foldl_keyStep_nodup events [] List.nodup_nil

lemma insertEvent_nil (e : DEvent) : insertEvent e [] = [e] := rfl

lemma insertEvent_cons (e x : DEvent) (rest : List DEvent) :
    insertEvent e (x :: rest) =
      if areNamesSimilar (e.name.getD "") (x.name.getD "") then
        mergeWinner e x :: rest
      else x :: insertEvent e rest := rfl

/-! ### Claim C2 -/

/-- Three events at the same exact coordinates and first start date, the third
name-similar to both of the first two, which are not similar to each other. -/
def ceA : DEvent :=
  { name := some "zzzzzaaaaa", lat := some 1, lng := some 2,
    occurrences := [("2025-01-01", "", "", "")], urls := [], description := "" }

def ceB : DEvent :=
  { name := some "zzzzzbbbbb", lat := some 1, lng := some 2,
    occurrences := [("2025-01-01", "", "", "")], urls := [], description := "" }

def ceE : DEvent :=
  { name := some "zzzzz", lat := some 1, lng := some 2,
    occurrences := [("2025-01-01", "", "", "")], urls := [], description := "" }

/-- C2, counterexample: on `[ceA, ceB, ceE]` the deduplicator's group scan
merges `ceE` into the slot of `ceA` (shorter name wins), so the two surviving
events share the same key — identical (hence identically rounded) coordinates
and first start date — and still have similar names: `"zzzzz"` is a substring
of `"zzzzzbbbbb"` and both normalized names have at least five characters. -/
theorem claim_C2_counterexample :
    dedupEvents [ceA, ceB, ceE] = [ceE, ceB] ∧
      ceE ≠ ceB ∧
      dedupKey ceE = dedupKey ceB ∧ (dedupKey ceE).isSome = true ∧
      areNamesSimilar (ceE.name.getD "") (ceB.name.getD "") = true := by
  decide

set_option maxHeartbeats 1000000 in
/-- C2 (amended): when no `(lat, lng, first start date)` key collects more
than two events, any two distinct surviving events with the same key have
non-similar names. -/
theorem claim_C2_amended (events : List DEvent)
    (hsmall : ∀ k, (groupOf events k).length ≤ 2) :
    (dedupEvents events).Pairwise (fun e1 e2 =>
      dedupKey e1 = dedupKey e2 →
        areNamesSimilar (e1.name.getD "") (e2.name.getD "") = false) := by
  unfold dedupEvents
  rw [List.pairwise_join]
  constructor
  · intro block hb
    rcases List.mem_map.mp hb with ⟨k, hk, rfl⟩
    have hlen := hsmall k
    unfold dedupBlock
    split
    next h1 =>
      rcases hg : groupOf events k with _ | ⟨a, t⟩
      · exact List.Pairwise.nil
      · rcases t with _ | ⟨b, t⟩
        · exact List.pairwise_singleton _ _
        · rw [hg] at h1; simp at h1
    next h1 =>
      rcases hg : groupOf events k with _ | ⟨a, _ | ⟨b, _ | ⟨c, t⟩⟩⟩
      · simp [dedupGroup]
      · rw [hg] at h1; simp at h1
      · have hred : dedupGroup [a, b] = insertEvent b [a] := by
          simp only [dedupGroup, List.foldl_cons, List.foldl_nil, insertEvent_nil]
        rw [hred, insertEvent_cons]
        split
        · exact List.pairwise_singleton _ _
        next hsim =>
          rw [insertEvent_nil]
          refine List.pairwise_cons.mpr ⟨?_, List.pairwise_singleton _ _⟩
          intro y hy _hkey
          rw [List.mem_singleton] at hy
          subst hy
          rw [areNamesSimilar_symm]
          simpa using hsim
      · rw [hg] at hlen; simp at hlen
  · rw [List.pairwise_map]
    refine List.Pairwise.imp ?_ (keyList_nodup events)
    intro k1 k2 hne x hx y hy hkey
    have h1 := mem_dedupBlock_key hx
    have h2 := mem_dedupBlock_key hy
    rw [h1, h2] at hkey
    exact absurd (Option.some_injective _ hkey) hne

/-- Two events with the same key and non-similar five-character names. -/
def wDA : DEvent :=
  { name := some "aaaaa", lat := some 3, lng := some 4,
    occurrences := [("2025-02-02", "", "", "")], urls := [], description := "" }

def wDB : DEvent :=
  { name := some "bbbbb", lat := some 3, lng := some 4,
    occurrences := [("2025-02-02", "", "", "")], urls := [], description := "" }

/-- C2, witness: the amended theorem applied to `[wDA, wDB]`, whose single
group has two events; the group-size bound follows from the group being a
filter of the two-element input. -/
theorem claim_C2_witness :
    (∀ k, (groupOf [wDA, wDB] k).length ≤ 2) ∧
      (dedupEvents [wDA, wDB]).Pairwise (fun e1 e2 =>
        dedupKey e1 = dedupKey e2 →
          areNamesSimilar (e1.name.getD "") (e2.name.getD "") = false) :=
  have h : ∀ k, (groupOf [wDA, wDB] k).length ≤ 2 :=
    fun _ => List.length_filter_le _ _
  ⟨h, claim_C2_amended [wDA, wDB] h⟩

/-! ### Claim C3 -/

/-- The key-presence test of the grouping loop (line 108): the `name`, `lat`
and `lng` keys exist and `occurrences` is truthy (non-empty). -/
def hasDedupFields (e : DEvent) : Bool :=
  e.name.isSome && e.lat.isSome && e.lng.isSome && !e.occurrences.isEmpty

/-- An event whose `lat` key is absent. -/
def ce0 : DEvent :=
  { name := some "Orphan", lat := none, lng := some 0,
    occurrences := [("2025-01-01", "", "", "")], urls := [], description := "" }

/-- C3, counterexample: an event lacking `lat` is not passed through
unchanged — the deduplicator drops it entirely, returning an empty list. -/
theorem claim_C3_counterexample :
    dedupEvents [ce0] = [] ∧ ce0 ∉ dedupEvents [ce0] := by
  decide

/-- C3 (amended): every event in the deduplicator's output carries the
`name`, `lat` and `lng` keys and a non-empty occurrence list; events lacking
any of them are dropped, not passed through. -/
theorem claim_C3_amended (events : List DEvent) (e : DEvent)
    (h : e ∈ dedupEvents events) : hasDedupFields e = true := by
  unfold dedupEvents at h
  rcases List.mem_join.mp h with ⟨block, hb, he⟩
  rcases List.mem_map.mp hb with ⟨k, hk, rfl⟩
  have hkey := mem_dedupBlock_key he
  unfold dedupKey at hkey
  split at hkey
  next hn hla hln ho => simp [hasDedupFields, hn, hla, hln, ho]
  next => simp at hkey

/-- A lone event carrying all the keys. -/
def wD3 : DEvent :=
  { name := some "Solo", lat := some 5, lng := some 6,
    occurrences := [("2025-03-03", "", "", "")], urls := [], description := "" }

/-- C3, witness: the amended theorem applied to the singleton input `[wD3]`,
whose sole event survives and carries all the keys. -/
theorem claim_C3_witness :
    wD3 ∈ dedupEvents [wD3] ∧ hasDedupFields wD3 = true :=
  ⟨by decide, claim_C3_amended [wD3] wD3 (by decide)⟩


/-! ## The Table Parser and per-file processing (`process_response`,
process_responses.py lines 591-751)

The capitalization regex cascade, the emoji scanner, `_create_short_name`,
and the tag cascade of `_process_tags` are abstracted by the function
parameters collected in `PipelineEnv`; every claim below holds for all of
them. -/

/-- The expected header row (line 601).  A mismatching header line is replaced
by this list (lines 604-609), so the parser always works against it. -/
def expectedHeaders : List String :=
  ["name", "location", "sublocation", "start_date", "start_time", "end_date",
    "end_time", "description", "url", "hashtags", "emoji"]

/-- Splitting a character list at every occurrence of `sep`
(`str.split(sep)`). -/
def splitOnChar (sep : Char) : List Char → List (List Char)
  | [] => [[]]
  | c :: rest =>
    if c = sep then [] :: splitOnChar sep rest
    else
      match splitOnChar sep rest with
      | [] => [[c]]
      | g :: gs => (c :: g) :: gs

/-- `str.strip('|')`: all leading and trailing pipe characters removed. -/
def stripPipes (l : List Char) : List Char :=
  ((l.dropWhile (· = '|')).reverse.dropWhile (· = '|')).reverse

/-- The cell values of one data line (line 646):
`[v.strip() for v in re.split(r'\s*\|\s*', line.strip().strip('|'))]` —
splitting on the pipes and stripping each cell gives the same values as the
whitespace-absorbing regex split followed by the strip. -/
def splitCells (line : String) : List String :=
  (splitOnChar '|' (stripPipes (stripWs line).data)).map (fun cs => stripWs ⟨cs⟩)

/-- `dict(zip(headers, values))` for `len(values) ∈ {10, 11}` (line 666):
`zip` truncates at the shorter list, so a ten-value row leaves the `emoji`
key absent (`none`). -/
def rowOfValues (vs : List String) : Row :=
  { name := vs.getD 0 "", location := vs.getD 1 "", sublocation := vs.getD 2 "",
    start_date := vs.getD 3 "", start_time := vs.getD 4 "", end_date := vs.getD 5 "",
    end_time := vs.getD 6 "", description := vs.getD 7 "", url := vs.getD 8 "",
    hashtags := vs.getD 9 "", emoji := vs.get? 10 }

/-- One data line of `lines[2:]` (lines 642-666): skip blank and `|---` lines,
merge the first two cells of a twelve-cell line when cell 4 parses as a date
(a pipe inside the event name), accept eleven cells, and accept ten cells
when the stripped line ends in `|` (missing trailing optional field); all
other cell counts are skipped. -/
def parseLine (line : String) : Option Row :=
  let t := stripWs line
  if t = "" then none
  else if "|---".data.isPrefixOf t.data then none
  else
    let vs := splitCells line
    if vs.length = expectedHeaders.length + 1 then
      if (parseDate (vs.getD 4 "")).isSome then
        some (rowOfValues ((vs.getD 0 "" ++ " | " ++ vs.getD 1 "") :: vs.drop 2))
      else none
    else if vs.length = expectedHeaders.length then some (rowOfValues vs)
    else if vs.length = expectedHeaders.length - 1 ∧ t.data.getLast? = some '|' then
      some (rowOfValues vs)
    else none

/-- The escaped-pipe fixup of the name field (line 672):
`.replace(' \\ |', ':').replace(' \\|', ':')`. -/
def pipeFixName (s : String) : String :=
  ⟨replaceAll " \\|".data ":".data (replaceAll " \\ |".data ":".data s.data)⟩

/-- The online-event keywords (line 687). -/
def onlineKeywords : List String := ["virtual", "online", "livestream"]

/-- The virtual-event tagging (lines 685-690): when the lowercased location
contains an online keyword, append `"Virtual"` unless already present. -/
def addVirtualTag (location : String) (tags : List String) : List String :=
  if onlineKeywords.any (fun kw => subOf kw.data (lowerStr location).data) then
    if "Virtual" ∈ tags then tags else tags ++ ["Virtual"]
  else tags

/-- `tag.lower().replace(" ", "")` (line 399). -/
def tagKey (t : String) : String := ⟨(lowerStr t).data.filter (· ≠ ' ')⟩

/-- `_filter_by_tag` (lines 396-400): keep the row iff no normalized tag is in
the removal list. -/
def filterByTag (tags : List String) (removeList : List String) : Bool :=
  tags.all (fun t => !(removeList.contains (tagKey t)))

/-- The emoji deny-list (line 720). -/
def blockedEmoji : List String :=
  ["⬜", "□", "◻", "⬛", "■", "▪", "▫", "◼", "◾", "◽", "◿", "▢", "▣", "▤",
    "▥", "▦", "▧", "▨", "▩"]

/-- The abstracted inputs of `process_response`: the capitalization
normalizer, the emoji scanner (`find_first_emoji`, `""` meaning none found),
`_create_short_name`, the `_process_tags` cascade, the removal list of
`tags.json`, the source site name extracted from the filename, the location
index, and the two filter dates. -/
structure PipelineEnv where
  fixCaps : String → String
  findEmoji : String → String
  shortNameOf : String → Option String
  processTags : String → List String
  removeList : List String
  siteName : String
  locationsMap : List (String × LocInfo)
  today : Date
  futureLimit : Date

/-- The full processing of one data line (lines 642-726): parse, sanitize the
four text fields, fix escaped pipes in the name, apply the date filter, build
the tags, add the virtual tag, apply the tag filter, resolve coordinates and
choose the emoji. -/
def processDataLine (env : PipelineEnv) (line : String) : Option Row :=
  match parseLine line with
  | none => none
  | some r0 =>
    let r := { r0 with
      name := pipeFixName (sanitizeText r0.name),
      description := sanitizeText r0.description,
      location := sanitizeText r0.location,
      sublocation := sanitizeText r0.sublocation }
    if ¬ (filterByDate r env.today env.futureLimit) then none
    else
      let r := { r with tags := addVirtualTag r.location (env.processTags r.hashtags) }
      if ¬ (filterByTag r.tags env.removeList) then none
      else
        let info := getLocationCoords (stripWs r.location) (stripWs r.sublocation)
          env.siteName (stripWs r.name) env.locationsMap
        let r := match info with
          | some i => { r with lat := some i.lat, lng := some i.lng }
          | none => r
        let fe := env.findEmoji (r.emoji.getD "")
        let r :=
          if fe ≠ "" ∧ ¬ (fe ∈ blockedEmoji) then { r with emoji := some fe }
          else
            match info with
            | some i =>
              match i.emoji with
              | some e => if e ≠ "" then { r with emoji := some e } else r
              | none => r
            | none => r
        some r

/-- The outcome of `process_response` for one source file: either no output
file at all (the early `return` of line 598) or an output file holding a
list of events. -/
inductive POut where
  | noFile : POut
  | file : List GroupedEvent → POut
deriving DecidableEq, Repr

/-- `gemini_response_text.strip().split('\n')` (line 600). -/
def responseLines (text : String) : List String :=
  (splitOnChar '\n' (stripWs text).data).map (fun cs => (⟨cs⟩ : String))

/-- `process_response`: empty or whitespace-only text returns without writing
a file (lines 597-598); fewer than two lines writes an empty JSON array
(lines 622-640); otherwise the data lines are processed, grouped, and given
short names (lines 642-751). -/
def processResponse (env : PipelineEnv) (text : String) : POut :=
  if stripWs text = "" then POut.noFile
  else if (responseLines text).length < 2 then POut.file []
  else
    POut.file
      ((groupEventOccurrences env.fixCaps
        (((responseLines text).drop 2).filterMap (processDataLine env))).map
          (fun e => { e with short_name := env.shortNameOf e.name }))


/-! ### Claim C4 -/

/-- A trivial environment for concrete runs of `processResponse`. -/
def env0 : PipelineEnv :=
  { fixCaps := fun s => s, findEmoji := fun _ => "", shortNameOf := fun _ => none,
    processTags := fun _ => [], removeList := [], siteName := "",
    locationsMap := [], today := ⟨2025, 1, 1⟩, futureLimit := ⟨2025, 4, 1⟩ }

/-- C4, counterexample: on whitespace-only input `process_response` returns
before writing anything — there is no output file at all, in particular no
file holding an empty array. -/
theorem claim_C4_counterexample :
    processResponse env0 " \n " = POut.noFile ∧
      ∀ evs : List GroupedEvent, POut.noFile ≠ POut.file evs := by
  refine ⟨by decide, ?_⟩
  intro evs h
  cases h

/-- C4 (amended): per-file processing writes no output file exactly when the
input text is empty or whitespace-only; when the stripped text is non-empty
but has fewer than two lines, it writes a file holding the empty array. -/
theorem claim_C4_amended (env : PipelineEnv) (text : String) :
    (processResponse env text = POut.noFile ↔ stripWs text = "") ∧
      (stripWs text ≠ "" → (responseLines text).length < 2 →
        processResponse env text = POut.file []) := by
  constructor
  · constructor
    · intro h
      by_contra hne
      unfold processResponse at h
      rw [if_neg hne] at h
      split at h <;> cases h
    · intro h
      unfold processResponse
      rw [if_pos h]
  · intro h1 h2
    unfold processResponse
    rw [if_neg h1, if_pos h2]

/-- C4, witness: the amended theorem applied at the one-line text `"x"`
(an empty-array file) and at the empty text (no file). -/
theorem claim_C4_witness :
    processResponse env0 "x" = POut.file [] ∧
      processResponse env0 "" = POut.noFile :=
  ⟨(claim_C4_amended env0 "x").2 (by decide) (by decide),
    (claim_C4_amended env0 "").1.mpr (by decide)⟩

/-! ### Claim C9 -/

/-- A data line with ten cells whose stripped form ends in `|`. -/
def c9wLine : String := "| Art Show | Gallery | | 2025-02-03 | 6pm | | | desc | http://g | #art |"

/-- C9, counterexample: the ten-cell line ending in `|` is accepted, but the
row record does not map the `emoji` header to the empty string — `dict(zip)`
truncates, so the `emoji` key is absent (`none`) rather than `""`. -/
theorem claim_C9_counterexample :
    (parseLine c9wLine).map Row.emoji = some none ∧
      some (none : Option String) ≠ some (some "") := by
  refine ⟨by decide, by simp⟩

/-- C9 (amended): every non-separator line with exactly `headers - 1 = 10`
cells whose stripped form ends in `|` is accepted, its ten values are mapped
to the first ten headers in order, and the `emoji` key is left absent
(`none`), not filled with an empty string. -/
theorem claim_C9_amended (line : String)
    (h2 : "|---".data.isPrefixOf (stripWs line).data = false)
    (h3 : (splitCells line).length = expectedHeaders.length - 1)
    (h4 : (stripWs line).data.getLast? = some '|') :
    parseLine line = some (rowOfValues (splitCells line)) ∧
      (rowOfValues (splitCells line)).emoji = none := by
  have hlen : (splitCells line).length = 10 := by
    rw [h3]; rfl
  have ht : ¬ (stripWs line = "") := by
    intro h
    rw [h] at h4
    cases h4
  constructor
  · simp only [parseLine]
    rw [if_neg ht, if_neg (by simp [h2]), if_neg (by rw [hlen]; decide),
      if_neg (by rw [hlen]; decide), if_pos ⟨h3, h4⟩]
  · show (splitCells line).get? 10 = none
    rw [List.get?_eq_none]
    rw [hlen]

/-- C9, witness: the amended theorem applied at the concrete ten-cell line
`c9wLine`, with each hypothesis checked by evaluation. -/
theorem claim_C9_witness :
    "|---".data.isPrefixOf (stripWs c9wLine).data = false ∧
      (splitCells c9wLine).length = expectedHeaders.length - 1 ∧
      (stripWs c9wLine).data.getLast? = some '|' ∧
      parseLine c9wLine = some (rowOfValues (splitCells c9wLine)) ∧
      (rowOfValues (splitCells c9wLine)).emoji = none :=
  ⟨by decide, by decide, by decide,
    (claim_C9_amended c9wLine (by decide) (by decide) (by decide)).1,
    (claim_C9_amended c9wLine (by decide) (by decide) (by decide)).2⟩

/-! ### Claim C10 -/

/-- Case-insensitive substring containment, as the claim words it. -/
def containsCI (s kw : String) : Bool :=
  subOf (lowerStr kw).data (lowerStr s).data

/-- C10 (confirmed): whenever the sanitized location contains `"virtual"`,
`"online"` or `"livestream"` case-insensitively, the tag step appends
`"Virtual"` to the tag list unless it is already present, and leaves the
list unchanged otherwise. -/
theorem claim_C10 (location : String) (tags : List String)
    (h : ∃ kw ∈ onlineKeywords, containsCI location kw = true) :
    addVirtualTag location tags =
      if "Virtual" ∈ tags then tags else tags ++ ["Virtual"] := by
  rcases h with ⟨kw, hkw, hsub⟩
  have hlow : lowerStr kw = kw := by
    fin_cases hkw <;> decide
  unfold containsCI at hsub
  rw [hlow] at hsub
  have hany : onlineKeywords.any (fun kw => subOf kw.data (lowerStr location).data) = true :=
    List.any_eq_true.mpr ⟨kw, hkw, hsub⟩
  unfold addVirtualTag
  rw [if_pos hany]

/-- C10, witness: the theorem applied at the location `"ONLINE via Zoom"` and
the tag list `["Music"]`, to which `"Virtual"` is appended. -/
theorem claim_C10_witness :
    (∃ kw ∈ onlineKeywords, containsCI "ONLINE via Zoom" kw = true) ∧
      addVirtualTag "ONLINE via Zoom" ["Music"] =
        (if "Virtual" ∈ ["Music"] then ["Music"] else ["Music"] ++ ["Virtual"]) :=
  ⟨⟨"online", by decide, by decide⟩,
    claim_C10 "ONLINE via Zoom" ["Music"] ⟨"online", by decide, by decide⟩⟩

end Fomo
